import Mathlib

set_option maxHeartbeats 1000000

/-!
Verification of the EvenniaPlugin bridge layer
(`src/Plugins/EvenniaPlugin/Source/EvenniaPlugin/Private/EvenniaPlugin.cpp` and
`.../Public/EvenniaPluginBPLibrary.h`).

The shallow embedding models:
* the engine JSON tag enum `EJson` and the plugin enum `EJsonType`;
* the shared JSON object graph: `FJsonObject` instances are mutable heap
  cells addressed by `Addr` in a `Store`; `FJsonValue` payloads are `JVal`
  (JSON numbers are modelled as exact decimal scalars `m / 10 ^ k`, standing
  for the double-precision payloads the plugin round-trips);
* `UJSONHandle` as `Option (Option Addr)` (outer `none` = null `UObject`
  pointer, inner `none` = null `TSharedPtr<FJsonObject>`), `UJSONValue` as
  `Option (Option JVal)`, `UJSONHandleArray` as `Option (List JVal)`
  (its `TArray` member always exists; only the `UObject` pointer can be null),
  and `USocket` as `Option (Option Unit)`;
* each Blueprint library function as a Lean function over these states.
  Functions whose C++ body can perform an out-of-bounds `TArray` access or a
  null-pointer dereference (which is an assertion failure / undefined
  behavior, not a catchable C++ exception) return an `Option` result whose
  `none` marks that fault.
-/

namespace Evennia

/-- Engine JSON tag enumeration `EJson` (declaration order as in the engine:
None, Null, String, Number, Boolean, Array, Object). -/
inductive EJson where
  | none
  | null
  | string
  | number
  | boolean
  | array
  | object
deriving DecidableEq, Repr

/-- Plugin enum `EJsonType` (EvenniaPluginBPLibrary.h lines 18-28), in
declaration order None, Null, String, Number, Boolean, Array, Object. -/
inductive EJsonType where
  | none
  | null
  | string
  | number
  | boolean
  | array
  | object
deriving DecidableEq, Repr, Fintype

/-- Numeric value of an `EJson` enumerator (its declaration index). -/
def EJson.toIdx : EJson → Nat
  | .none => 0
  | .null => 1
  | .string => 2
  | .number => 3
  | .boolean => 4
  | .array => 5
  | .object => 6

/-- `EJsonType` enumerator with a given numeric value (declaration index). -/
def EJsonType.ofIdx : Nat → EJsonType
  | 0 => .none
  | 1 => .null
  | 2 => .string
  | 3 => .number
  | 4 => .boolean
  | 5 => .array
  | _ => .object

/-- The `static_cast<EJsonType>(EJson)` conversion the plugin performs:
reinterpret the numeric enumerator value. -/
def castEJson (e : EJson) : EJsonType :=
  EJsonType.ofIdx e.toIdx

/-- Address of a shared `FJsonObject` heap cell. -/
abbrev Addr := Nat

/-- An `FJsonValue` payload.  `jobj` holds a shared reference to an
`FJsonObject` cell (`none` models a null `TSharedPtr<FJsonObject>` inside an
`FJsonValueObject`); `jarr` holds the element list by value, as
`FJsonValueArray` copies the `TArray` of shared value pointers.  `jnum m k`
is the exact decimal `m / 10 ^ k`. -/
inductive JVal where
  | jnone
  | jnull
  | jstr (s : String)
  | jnum (m : Int) (k : Nat)
  | jbool (b : Bool)
  | jarr (es : List JVal)
  | jobj (a : Option Addr)

/-- An `FJsonObject`: its `Values` map, modelled as an association list in
insertion order (the engine `TMap` preserves insertion order, and writing an
existing key replaces the value in place). -/
abbrev ObjCell := List (String × JVal)

/-- The heap of shared `FJsonObject` cells. -/
abbrev Store := List ObjCell

/-- The `FJsonValue::Type` tag of a payload. -/
def JVal.typeTag : JVal → EJson
  | .jnone => .none
  | .jnull => .null
  | .jstr _ => .string
  | .jnum _ _ => .number
  | .jbool _ => .boolean
  | .jarr _ => .array
  | .jobj _ => .object

/-- `FJsonValue::AsObject`: the shared object pointer for an object value,
null for every other payload (the engine logs and returns a null pointer). -/
def JVal.asObject : JVal → Option Addr
  | .jobj a => a
  | _ => Option.none

/-- `TMap::Add` on an association list: replace the value in place when the
key exists, append otherwise. -/
def assocSet {α β : Type} [BEq α] (m : List (α × β)) (key : α) (v : β) :
    List (α × β) :=
  if m.any (fun p => p.1 == key) then
    m.map (fun p => if p.1 == key then (key, v) else p)
  else
    m ++ [(key, v)]

/-- Look a key up in an association list (`TMap::Find`). -/
def assocGet {α β : Type} [BEq α] (m : List (α × β)) (key : α) : Option β :=
  (m.find? (fun p => p.1 == key)).map (fun p => p.2)

/-- Write a field of the `FJsonObject` cell at address `a` (a no-op on a
dangling address, which the plugin never produces). -/
def storeSetField (store : Store) (a : Addr) (key : String) (v : JVal) :
    Store :=
  match store.get? a with
  | some cell => store.set a (assocSet cell key v)
  | Option.none => store

/-- Read a field of the `FJsonObject` cell at address `a`. -/
def storeGetField (store : Store) (a : Addr) (key : String) : Option JVal :=
  (store.get? a).bind (fun cell => assocGet cell key)

/-- Replace every occurrence of `pat` in `cs` by `rep`, scanning left to
right; `fuel` bounds the recursion (callers pass the input length). -/
def replaceAllFuel (pat rep : List Char) : Nat → List Char → List Char
  | 0, cs => cs
  | _, [] => []
  | fuel + 1, c :: cs =>
    if pat ≠ [] ∧ pat.isPrefixOf (c :: cs) then
      rep ++ replaceAllFuel pat rep fuel (List.drop pat.length (c :: cs))
    else
      c :: replaceAllFuel pat rep fuel cs

/-- Replace every occurrence of the substring `pat` by `rep`
(`FString::ReplaceInline`). -/
def replaceAllStr (pat rep s : String) : String :=
  String.mk (replaceAllFuel pat.toList rep.toList s.toList.length s.toList)

/-- Modelled from the spec: the engine helper `FString::ReplaceEscapedCharWithChar`
(not part of this repository), which rewrites literal escape sequences to the
characters they name, one global replacement per pair. -/
def replaceEscapedCharWithChar (s : String) : String :=
  [("\\n", "\n"), ("\\r", "\r"), ("\\t", "\t"),
   ("\\'", "'"), ("\\\"", "\""), ("\\\\", "\\")].foldl
    (fun acc p => replaceAllStr p.1 p.2 acc) s

/-- A `UJSONHandle`: `none` is a null `UObject` pointer, `some none` a handle
whose `JSONObject` shared pointer is null (`IsValid()` false), `some (some a)`
a handle onto cell `a`. -/
abbrev Handle := Option (Option Addr)

/-- A `UJSONHandleArray`: `none` is a null `UObject` pointer; otherwise the
`JSONObjectArray` member (always present) as a value list. -/
abbrev HandleArray := Option (List JVal)

/-- A `UJSONValue`: `none` is a null `UObject` pointer, `some none` a null
`JSONValue` shared pointer, `some (some v)` a wrapper of payload `v`. -/
abbrev ValueHandle := Option (Option JVal)

/-- `UEvenniaPluginBPLibrary::EvenniaAddJSONElement` (EvenniaPlugin.cpp
256-281): on a valid handle and a non-empty name, `SetStringField`; otherwise
log and leave everything unchanged. -/
def EvenniaAddJSONElement (store : Store) (h : Handle) (name value : String) :
    Store :=
  match h with
  | some (some a) =>
    if name ≠ "" then storeSetField store a name (.jstr value) else store
  | _ => store

/-- `UEvenniaPluginBPLibrary::EvenniaAddJSONNumericElement` (EvenniaPlugin.cpp
283-301): on a valid handle, `SetNumberField` under the escape-rewritten name
(no empty-name check); the `float` argument is widened to double, modelled by
the exact scalar `m / 10 ^ k`. -/
def EvenniaAddJSONNumericElement (store : Store) (h : Handle) (name : String)
    (m : Int) (k : Nat) : Store :=
  match h with
  | some (some a) =>
    storeSetField store a (replaceEscapedCharWithChar name) (.jnum m k)
  | _ => store

/-- `UEvenniaPluginBPLibrary::EvenniaAddJSONObject` (EvenniaPlugin.cpp
303-321): on a valid target handle and non-null value `UObject`,
`SetObjectField` stores the value's shared object pointer (which may itself
be null) under `Name` (the escape-rewritten `NewName` is computed but not
used, line 310). -/
def EvenniaAddJSONObject (store : Store) (h : Handle) (name : String)
    (value : Handle) : Store :=
  match h, value with
  | some (some a), some vObj => storeSetField store a name (.jobj vObj)
  | _, _ => store

/-- `UEvenniaPluginBPLibrary::EvenniaAddJSONObjectToArray` (EvenniaPlugin.cpp
323-341): on non-null array and value `UObject`s, append an
`FJsonValueObject` sharing the value's object pointer. -/
def EvenniaAddJSONObjectToArray (arr : HandleArray) (value : Handle) :
    HandleArray :=
  match arr, value with
  | some l, some vObj => some (l ++ [.jobj vObj])
  | _, _ => arr

/-- `UEvenniaPluginBPLibrary::EvenniaAddJSONArrayToObject` (EvenniaPlugin.cpp
343-360): on a valid target handle and non-null array `UObject`,
`SetArrayField` stores a copy of the array's current element list. -/
def EvenniaAddJSONArrayToObject (store : Store) (h : Handle) (name : String)
    (value : HandleArray) : Store :=
  match h, value with
  | some (some a), some l => storeSetField store a name (.jarr l)
  | _, _ => store

/-- `UEvenniaPluginBPLibrary::EvenniaAddJSONArrayToArray` (EvenniaPlugin.cpp
364-384): on non-null array `UObject`s, build a temporary `UJSONHandle` with
`NewObject` (its `JSONObject` shared pointer stays null), call
`EvenniaAddJSONArrayToObject` on it (a no-op, since the temporary handle is
invalid), then append an `FJsonValueObject` wrapping the temporary handle's
null object pointer. -/
def EvenniaAddJSONArrayToArray (store : Store) (arr : HandleArray)
    (name : String) (value : HandleArray) : Store × HandleArray :=
  match arr, value with
  | some l, some v =>
    let tempHandle : Handle := some Option.none
    let store' := EvenniaAddJSONArrayToObject store tempHandle name (some v)
    (store', some (l ++ [.jobj Option.none]))
  | _, _ => (store, arr)

/-- `FJsonValue::TryGetString`: succeeds on string, number and boolean
payloads (the engine stringifies the latter two), fails otherwise.  The
number stringification is irrelevant to the claims; it is modelled as the
decimal text of the scalar via `toString`. -/
def JVal.tryGetString : JVal → Option String
  | .jstr s => some s
  | .jnum m k => some (toString m ++ "e-" ++ toString k)
  | .jbool b => some (if b then "true" else "false")
  | _ => Option.none

/-- `UEvenniaPluginBPLibrary::EvenniaGetJSONElement` (EvenniaPlugin.cpp
386-405): on a valid handle, set `Value` to the empty string and then
`TryGetStringField` under the escape-rewritten name (the boolean result is
discarded; `Value` is updated only when the field exists and is
string-convertible).  On an invalid handle `Value` is left unchanged.  The
function returns only the string: there is no found flag. -/
def EvenniaGetJSONElement (store : Store) (h : Handle) (name : String)
    (valueIn : String) : String :=
  match h with
  | some (some a) =>
    match (storeGetField store a (replaceEscapedCharWithChar name)).bind
        JVal.tryGetString with
    | some s => s
    | Option.none => ""
  | _ => valueIn

/-- `UEvenniaPluginBPLibrary::EvenniaGetJSONValueType` (EvenniaPlugin.cpp
729-737): on a valid value wrapper, output the `static_cast` of the payload's
type tag; otherwise leave the output parameter unchanged. -/
def EvenniaGetJSONValueType (v : ValueHandle) (jsonTypeIn : EJsonType) :
    EJsonType :=
  match v with
  | some (some payload) => castEJson payload.typeTag
  | _ => jsonTypeIn

/-- The correspondence the spec describes for C7: each of the seven JSON value
tags maps to the enumerator of the same name. -/
def specCorrespondingTag : EJson → EJsonType
  | .none => .none
  | .null => .null
  | .string => .string
  | .number => .number
  | .boolean => .boolean
  | .array => .array
  | .object => .object

/-- `FJsonObject::GetStringField`: the field must exist and have tag String,
otherwise the engine dereferences a null shared pointer (a fault, `none`). -/
def storeGetStringFieldStrict (store : Store) (a : Addr) (name : String) :
    Option String :=
  match storeGetField store a name with
  | some (.jstr s) => some s
  | _ => Option.none

/-- `UEvenniaPluginBPLibrary::EvenniaGetJSONObjectFromArray` (EvenniaPlugin.cpp
562-587).  Result `none` marks an out-of-bounds `TArray` element access; a
`some (success, handle)` is a handled return.  The guard is `Index <=
JSONObjectArray.Num()`, so `Index = Num()` and negative indices pass the
guard and reach the element access.  `sIn` is the caller's `Success`
variable, untouched when the array `UObject` is null. -/
def EvenniaGetJSONObjectFromArray (arr : HandleArray) (i : Int) (sIn : Bool) :
    Option (Bool × Handle) :=
  match arr with
  | Option.none => some (sIn, Option.none)
  | some l =>
    if i ≤ (l.length : Int) then
      if 0 ≤ i then
        match l.get? i.toNat with
        | some e => some (true, some e.asObject)
        | Option.none => Option.none
      else Option.none
    else some (false, Option.none)

/-- `UEvenniaPluginBPLibrary::EvenniaGetJSONElementMultiple` (EvenniaPlugin.cpp
454-475).  Result `none` marks an out-of-bounds element access or a null
dereference inside `AsObject()->GetStringField` (non-object element, or a
missing / non-string field).  The guard is `Index <= Num() - 1`, so indices
`≥ Num()` are rejected with `Value = ""` but negative indices reach the
element access.  `vIn` is the caller's `Value`, untouched on a null array. -/
def EvenniaGetJSONElementMultiple (store : Store) (arr : HandleArray)
    (i : Int) (name : String) (vIn : String) : Option String :=
  match arr with
  | Option.none => some vIn
  | some l =>
    if i ≤ (l.length : Int) - 1 then
      if 0 ≤ i then
        match l.get? i.toNat with
        | some e =>
          match e.asObject with
          | some a => storeGetStringFieldStrict store a name
          | Option.none => Option.none
        | Option.none => Option.none
      else Option.none
    else some ""

/-- `UEvenniaPluginBPLibrary::EvenniaGetJSONObjectType` (EvenniaPlugin.cpp
824-832).  The element access `JSONObjectArray[Index]` is performed with no
index validation at all; any out-of-range index is a fault (`none`).  `cur`
is the caller's `JsonType`, untouched on a null array. -/
def EvenniaGetJSONObjectType (arr : HandleArray) (i : Int) (cur : EJsonType) :
    Option EJsonType :=
  match arr with
  | Option.none => some cur
  | some l =>
    if 0 ≤ i then
      match l.get? i.toNat with
      | some e => some (castEJson e.typeTag)
      | Option.none => Option.none
    else Option.none

/-- `UEvenniaPluginBPLibrary::EvenniaGetJSONArrayTypesAndValues`
(EvenniaPlugin.cpp 804-822): walk the array in order, adding each element to
a `TMap` keyed by the cast type tag (an element replaces any earlier element
with the same tag); `ElementCount` is the final map size.  On a null array
the map is left empty and the count is 0. -/
def EvenniaGetJSONArrayTypesAndValues (arr : HandleArray) :
    List (EJsonType × JVal) × Int :=
  match arr with
  | Option.none => ([], 0)
  | some l =>
    let m := l.foldl (fun acc v => assocSet acc (castEJson v.typeTag) v) []
    (m, (m.length : Int))

/-- A `USocket`: `none` is a null or invalid `UObject` pointer, `some none`
a socket object whose `_Socket` descriptor pointer is null (as after
`NewObject<USocket>`, whose zero-filled allocation leaves it null),
`some (some ())` a socket wrapping a live descriptor. -/
abbrev Socket := Option (Option Unit)

/-- Environment outcomes for `Connect`: whether `FIPv4Address::Parse` accepts
the address text, whether `FTcpSocketBuilder::Build` yields a socket, and
whether `FSocket::Connect` completes. -/
structure ConnectEnv where
  parseOk : Bool
  buildOk : Bool
  connectOk : Bool

/-- `UEvenniaPluginBPLibrary::Connect` (EvenniaPlugin.cpp 48-104).  The
boolean result of `FIPv4Address::Parse` is discarded (line 57): a parse
failure leaves the address value as parsed-nothing garbage but does not by
itself make the call fail.  `didConnect` is false when the builder returns
null or the handshake fails; in that case the call returns success=false and
a null socket, otherwise success=true and a socket wrapping the live
descriptor. -/
def Connect (env : ConnectEnv) : Socket × Bool :=
  let didConnect := env.buildOk && env.connectOk
  if didConnect then (some (some ()), true) else (Option.none, false)

/-- `UEvenniaPluginBPLibrary::CloseConnection` (EvenniaPlugin.cpp 212-235):
false on a null or invalid connection `UObject` and on a null descriptor;
otherwise the result of `FSocket::Close` (environment outcome `closeOk`). -/
def CloseConnection (closeOk : Bool) (conn : Socket) : Bool :=
  match conn with
  | some (some _) => closeOk
  | _ => false

/-- The fixed per-iteration read ceiling in `GetMessage` (EvenniaPlugin.cpp
line 165). -/
def recvCap : Nat := 65507

/-- The `while (HasPendingData)` loop of `GetMessage` (EvenniaPlugin.cpp
163-168): each iteration re-initializes the single buffer to
`min(pending, 65507)` zero bytes and reads that many bytes, overwriting the
previous iteration's buffer.  `fuel` bounds the recursion (callers pass
`pending.length + 1`, enough since every iteration consumes at least one
byte). -/
def recvLoop : Nat → List UInt8 → List UInt8 → List UInt8
  | 0, _, buf => buf
  | fuel + 1, pending, buf =>
    if pending.isEmpty then buf
    else
      recvLoop fuel (pending.drop (min pending.length recvCap))
        (pending.take (min pending.length recvCap))

/-- Modelled from the spec only in its text decoding: `ANSI_TO_TCHAR`
(engine code, not in this repository) widens each byte to the character of
the same code point, stopping at the terminating NUL the function appends. -/
def ansiDecode (bs : List UInt8) : String :=
  String.mk (bs.map (fun b => Char.ofNat b.toNat))

/-- `UEvenniaPluginBPLibrary::GetMessage` (EvenniaPlugin.cpp 144-183): fails
(`none`, leaving `Message` unchanged) on an invalid connection, a null
descriptor, or when the final buffer is empty because no data was pending;
otherwise decodes the final buffer (up to its first NUL byte) and succeeds. -/
def GetMessage (conn : Socket) (pending : List UInt8) : Option String :=
  match conn with
  | some (some _) =>
    let buf := recvLoop (pending.length + 1) pending []
    if buf.isEmpty then Option.none
    else some (ansiDecode (buf.takeWhile (fun b => b ≠ 0)))
  | _ => Option.none

/-- The final read of the receive loop: the last window of at most `recvCap`
bytes of the pending stream (the whole stream when it fits in one read). -/
def lastBlock : Nat → List UInt8 → List UInt8
  | _, [] => []
  | 0, p => p
  | fuel + 1, p => if p.length ≤ recvCap then p else lastBlock fuel (p.drop recvCap)

mutual
/-- A pure JSON document tree: a `JVal` graph with every shared object
reference resolved.  Serialization and parsing are defined on these. -/
inductive JTree where
  | tnone
  | tnull
  | tstr (s : String)
  | tnum (m : Int) (k : Nat)
  | tbool (b : Bool)
  | tarr (es : JTreeList)
  | tobj (fs : JFields)

/-- A list of JSON trees (array elements). -/
inductive JTreeList where
  | nil
  | cons (hd : JTree) (tl : JTreeList)

/-- An ordered field list of a JSON object. -/
inductive JFields where
  | nil
  | cons (key : String) (val : JTree) (tl : JFields)
end

/-- Decimal digit character of `d` (for `d ≤ 9`; larger inputs clamp). -/
def digitChar (d : Nat) : Char :=
  if d = 0 then '0' else if d = 1 then '1' else if d = 2 then '2'
  else if d = 3 then '3' else if d = 4 then '4' else if d = 5 then '5'
  else if d = 6 then '6' else if d = 7 then '7' else if d = 8 then '8'
  else '9'

/-- Lowercase hexadecimal digit character of `d` (for `d ≤ 15`). -/
def hexDigit (d : Nat) : Char :=
  if d < 10 then digitChar d
  else if d = 10 then 'a' else if d = 11 then 'b' else if d = 12 then 'c'
  else if d = 13 then 'd' else if d = 14 then 'e' else 'f'

/-- Most-significant-first decimal digits of `n`; `fuel` bounds the recursion
(callers pass `n + 1`). -/
def natDigitsFuel : Nat → Nat → List Char
  | 0, _ => []
  | fuel + 1, n =>
    if n < 10 then [digitChar n]
    else natDigitsFuel fuel (n / 10) ++ [digitChar (n % 10)]

/-- Most-significant-first decimal digits of `n` (no leading zeros; `0`
yields `"0"`). -/
def natDigits (n : Nat) : List Char :=
  natDigitsFuel (n + 1) n

/-- The digits of a magnitude, zero-padded on the left to at least `k + 1`
digits (so a decimal point can sit before the last `k` of them). -/
def serNumPadded (mAbs k : Nat) : List Char :=
  if (natDigits mAbs).length ≤ k then
    List.replicate (k + 1 - (natDigits mAbs).length) '0' ++ natDigits mAbs
  else natDigits mAbs

/-- Decimal text of the scalar `m / 10 ^ k`: for `k = 0` the integer digits,
otherwise the digits of `m` padded to at least `k + 1` digits with a decimal
point before the last `k` of them (so exactly `k` fractional digits,
trailing zeros preserved). -/
def serNum (m : Int) (k : Nat) : List Char :=
  (if m < 0 then ['-'] else []) ++
    (if k = 0 then natDigits m.natAbs
     else
       (serNumPadded m.natAbs k).take ((serNumPadded m.natAbs k).length - k)
         ++ '.' :: (serNumPadded m.natAbs k).drop
             ((serNumPadded m.natAbs k).length - k))

/-- JSON escape of one character: the two-character escapes for quote,
backslash and the named control characters, `\u00xx` for the remaining
control characters, the character itself otherwise. -/
def escChar (c : Char) : List Char :=
  if c = '"' then ['\\', '"']
  else if c = '\\' then ['\\', '\\']
  else if c = '\n' then ['\\', 'n']
  else if c = '\r' then ['\\', 'r']
  else if c = '\t' then ['\\', 't']
  else if c = '\x08' then ['\\', 'b']
  else if c = '\x0c' then ['\\', 'f']
  else if c.toNat < 0x20 then
    ['\\', 'u', '0', '0', hexDigit (c.toNat / 16), hexDigit (c.toNat % 16)]
  else [c]

/-- JSON escape of a character sequence. -/
def escapeChars (cs : List Char) : List Char :=
  cs.foldr (fun c acc => escChar c ++ acc) []

/-- A JSON string literal: quote, escaped body, quote. -/
def serStr (s : String) : List Char :=
  '"' :: escapeChars s.toList ++ ['"']

mutual
/-- Modelled from the spec: `FJsonSerializer::Serialize` with a condensed
writer (engine code, not in this repository) — compact RFC 8259 text.
`tnone` (`EJson::None`) has no JSON form; the writer emits nothing for it
(such values cannot be built by the plugin's construction operations). -/
def serVal : JTree → List Char
  | .tnone => []
  | .tnull => ['n', 'u', 'l', 'l']
  | .tbool true => ['t', 'r', 'u', 'e']
  | .tbool false => ['f', 'a', 'l', 's', 'e']
  | .tstr s => serStr s
  | .tnum m k => serNum m k
  | .tarr es => '[' :: serList es ++ [']']
  | .tobj fs => '{' :: serFields fs ++ ['}']

/-- Comma-separated serialization of array elements. -/
def serList : JTreeList → List Char
  | .nil => []
  | .cons t .nil => serVal t
  | .cons t ts => serVal t ++ ',' :: serList ts

/-- Comma-separated serialization of `"key":value` fields. -/
def serFields : JFields → List Char
  | .nil => []
  | .cons k v .nil => serStr k ++ ':' :: serVal v
  | .cons k v fs => serStr k ++ ':' :: serVal v ++ ',' :: serFields fs
end

/-- JSON insignificant whitespace. -/
def isWsChar (c : Char) : Bool :=
  c = ' ' || c = '\n' || c = '\r' || c = '\t'

/-- Skip insignificant whitespace. -/
def skipWs (cs : List Char) : List Char :=
  cs.dropWhile isWsChar

/-- Characters that may legitimately follow a serialized value inside a
document: element/field separator and the two closers. -/
def boundaryChar (c : Char) : Bool :=
  c = ',' || c = ']' || c = '}'

/-- Whether a rest-input begins at a value boundary (or is the end of the
document). -/
def boundaryOk : List Char → Bool
  | [] => true
  | c :: _ => boundaryChar c

/-- Split a maximal leading run of decimal digits off `cs`. -/
def readDigits : List Char → List Char × List Char
  | [] => ([], [])
  | c :: cs =>
    if c.isDigit then
      let p := readDigits cs
      (c :: p.1, p.2)
    else ([], c :: cs)

/-- Numeric value of a decimal digit character. -/
def digitVal (c : Char) : Nat := c.toNat - 48

/-- Value of a most-significant-first decimal digit string. -/
def digitsToNat (ds : List Char) : Nat :=
  ds.foldl (fun a c => 10 * a + digitVal c) 0

/-- Numeric value of a hexadecimal digit character, `none` for non-digits. -/
def hexVal (c : Char) : Option Nat :=
  if c.isDigit then some (c.toNat - 48)
  else if 'a' ≤ c ∧ c ≤ 'f' then some (c.toNat - 87)
  else if 'A' ≤ c ∧ c ≤ 'F' then some (c.toNat - 55)
  else Option.none

/-- Decode a two-character escape's second character. -/
def escDecode (e : Char) : Option Char :=
  if e = '"' then some '"'
  else if e = '\\' then some '\\'
  else if e = '/' then some '/'
  else if e = 'n' then some '\n'
  else if e = 'r' then some '\r'
  else if e = 't' then some '\t'
  else if e = 'b' then some '\x08'
  else if e = 'f' then some '\x0c'
  else Option.none

/-- Parse the body of a JSON string literal (the opening quote already
consumed), returning the unescaped characters and the input after the
closing quote. -/
def parseStringBody : List Char → Option (List Char × List Char)
  | [] => Option.none
  | c :: r =>
    if c = '"' then some ([], r)
    else if c = '\\' then
      match r with
      | [] => Option.none
      | e :: r' =>
        if e = 'u' then
          match r' with
          | h1 :: h2 :: h3 :: h4 :: r'' =>
            match hexVal h1, hexVal h2, hexVal h3, hexVal h4 with
            | some a, some b, some c2, some d =>
              (parseStringBody r'').map
                (fun p => (Char.ofNat (((a * 16 + b) * 16 + c2) * 16 + d) :: p.1, p.2))
            | _, _, _, _ => Option.none
          | _ => Option.none
        else
          match escDecode e with
          | some ch => (parseStringBody r').map (fun p => (ch :: p.1, p.2))
          | Option.none => Option.none
    else (parseStringBody r).map (fun p => (c :: p.1, p.2))

/-- Fold an optional exponent part onto the scalar `m / 10 ^ k`
(`m * 10 ^ e / 10 ^ k` renormalized so the exponent stays a `Nat`). -/
def applyExponent (m : Int) (k : Nat) (neg : Bool) (e : Nat) : JTree :=
  if neg then .tnum m (k + e)
  else if e ≤ k then .tnum m (k - e)
  else .tnum (m * ((10 : Int) ^ (e - k))) 0

/-- Parse the optional exponent of a JSON number already worth `m / 10 ^ k`. -/
def parseExponent (m : Int) (k : Nat) (cs : List Char) :
    Option (JTree × List Char) :=
  match cs with
  | c :: r =>
    if c = 'e' ∨ c = 'E' then
      match r with
      | s :: r' =>
        if s = '+' then
          let p := readDigits r'
          if p.1.isEmpty then Option.none
          else some (applyExponent m k false (digitsToNat p.1), p.2)
        else if s = '-' then
          let p := readDigits r'
          if p.1.isEmpty then Option.none
          else some (applyExponent m k true (digitsToNat p.1), p.2)
        else
          let p := readDigits r
          if p.1.isEmpty then Option.none
          else some (applyExponent m k false (digitsToNat p.1), p.2)
      | [] => Option.none
    else some (.tnum m k, cs)
  | [] => some (.tnum m k, cs)

/-- Apply a JSON minus sign to a magnitude. -/
def mkSigned (neg : Bool) (n : Nat) : Int :=
  if neg then -(n : Int) else (n : Int)

/-- Parse the digits of a JSON number after the optional minus sign:
integer part, optional fraction, optional exponent. -/
def parseNumAfterSign (neg : Bool) (cs : List Char) :
    Option (JTree × List Char) :=
  if (readDigits cs).1.isEmpty then Option.none
  else if (readDigits cs).2.head? = some '.' then
    if (readDigits (readDigits cs).2.tail).1.isEmpty then Option.none
    else
      parseExponent
        (mkSigned neg
          (digitsToNat (readDigits cs).1
              * 10 ^ (readDigits (readDigits cs).2.tail).1.length
            + digitsToNat (readDigits (readDigits cs).2.tail).1))
        (readDigits (readDigits cs).2.tail).1.length
        (readDigits (readDigits cs).2.tail).2
  else parseExponent (mkSigned neg (digitsToNat (readDigits cs).1)) 0
    (readDigits cs).2

/-- Parse a JSON number (optional minus sign, then magnitude). -/
def parseNumber (cs : List Char) : Option (JTree × List Char) :=
  if cs.head? = some '-' then parseNumAfterSign true cs.tail
  else parseNumAfterSign false cs

mutual
/-- Modelled from the spec: `FJsonSerializer::Deserialize`'s value reader
(engine code, not in this repository) — recursive-descent RFC 8259 parsing;
`fuel` bounds the nesting (callers pass more than the input length). -/
def parseVal : Nat → List Char → Option (JTree × List Char)
  | 0, _ => Option.none
  | fuel + 1, cs =>
    match skipWs cs with
    | [] => Option.none
    | c :: r =>
      if c = '{' then
        match skipWs r with
        | c' :: r' =>
          if c' = '}' then some (.tobj .nil, r')
          else (parseFields fuel r).map (fun p => (.tobj p.1, p.2))
        | [] => Option.none
      else if c = '[' then
        match skipWs r with
        | c' :: r' =>
          if c' = ']' then some (.tarr .nil, r')
          else (parseElems fuel r).map (fun p => (.tarr p.1, p.2))
        | [] => Option.none
      else if c = '"' then
        (parseStringBody r).map (fun p => (.tstr (String.mk p.1), p.2))
      else if c = 'n' then
        match r with
        | 'u' :: 'l' :: 'l' :: r' => some (.tnull, r')
        | _ => Option.none
      else if c = 't' then
        match r with
        | 'r' :: 'u' :: 'e' :: r' => some (.tbool true, r')
        | _ => Option.none
      else if c = 'f' then
        match r with
        | 'a' :: 'l' :: 's' :: 'e' :: r' => some (.tbool false, r')
        | _ => Option.none
      else parseNumber (c :: r)

/-- Parse one or more comma-separated array elements and the closing `]`. -/
def parseElems : Nat → List Char → Option (JTreeList × List Char)
  | 0, _ => Option.none
  | fuel + 1, cs =>
    (parseVal fuel cs).bind (fun p =>
      match skipWs p.2 with
      | c :: r =>
        if c = ',' then (parseElems fuel r).map (fun q => (.cons p.1 q.1, q.2))
        else if c = ']' then some (.cons p.1 .nil, r)
        else Option.none
      | [] => Option.none)

/-- Parse one or more comma-separated object fields and the closing `}`. -/
def parseFields : Nat → List Char → Option (JFields × List Char)
  | 0, _ => Option.none
  | fuel + 1, cs =>
    match skipWs cs with
    | c :: r =>
      if c = '"' then
        (parseStringBody r).bind (fun kp =>
          match skipWs kp.2 with
          | c2 :: r2 =>
            if c2 = ':' then
              (parseVal fuel r2).bind (fun vp =>
                match skipWs vp.2 with
                | c3 :: r3 =>
                  if c3 = ',' then
                    (parseFields fuel r3).map
                      (fun q => (.cons (String.mk kp.1) vp.1 q.1, q.2))
                  else if c3 = '}' then
                    some (.cons (String.mk kp.1) vp.1 .nil, r3)
                  else Option.none
                | [] => Option.none)
            else Option.none
          | [] => Option.none)
      else Option.none
    | [] => Option.none
end

/-- Parse a complete JSON document whose root must be an object, with
nothing but whitespace after it (`EvenniaParseString` deserializes into an
`FJsonObject`, so a non-object root is a failure). -/
def parseTop (s : String) : Option JFields :=
  let cs := s.toList
  match parseVal (2 * cs.length + 1) cs with
  | some (.tobj fs, rest) => if skipWs rest = [] then some fs else Option.none
  | _ => Option.none

mutual
/-- Resolve a `JVal` against the store into a pure tree, following shared
object references; `fuel` bounds the depth (the object graph can be made
cyclic, in which case the engine serializer would not terminate). -/
def flattenVal : Nat → Store → JVal → Option JTree
  | 0, _, _ => Option.none
  | fuel + 1, store, v =>
    match v with
    | .jnone => some .tnone
    | .jnull => some .tnull
    | .jstr s => some (.tstr s)
    | .jnum m k => some (.tnum m k)
    | .jbool b => some (.tbool b)
    | .jarr es => (flattenList fuel store es).map .tarr
    | .jobj (some a) =>
      match store.get? a with
      | some cell => (flattenCell fuel store cell).map .tobj
      | Option.none => Option.none
    | .jobj Option.none => Option.none

/-- Resolve an element list against the store. -/
def flattenList : Nat → Store → List JVal → Option JTreeList
  | 0, _, _ => Option.none
  | fuel + 1, store, vs =>
    match vs with
    | [] => some .nil
    | v :: rest =>
      (flattenVal fuel store v).bind (fun t =>
        (flattenList fuel store rest).map (fun ts => .cons t ts))

/-- Resolve an `FJsonObject` cell's field list against the store. -/
def flattenCell : Nat → Store → ObjCell → Option JFields
  | 0, _, _ => Option.none
  | fuel + 1, store, cell =>
    match cell with
    | [] => some .nil
    | (key, v) :: rest =>
      (flattenVal fuel store v).bind (fun t =>
        (flattenCell fuel store rest).map (fun fs => .cons key t fs))
end

/-- `UEvenniaPluginBPLibrary::EvenniaSerializeJSONObject` (EvenniaPlugin.cpp
477-501): on a valid handle, serialize the shared object to text and
succeed; on a null or invalid handle, log and leave the outputs unchanged
(`none` is the failure outcome).  The serializer itself is modelled as
resolving the shared graph (`fuel` bounds the depth) and printing the
resulting tree. -/
def EvenniaSerializeJSONObject (fuel : Nat) (store : Store) (h : Handle) :
    Option String :=
  match h with
  | some (some a) =>
    match store.get? a with
    | some cell =>
      (flattenCell fuel store cell).map (fun fs => String.mk (serVal (.tobj fs)))
    | Option.none => Option.none
  | _ => Option.none

/-- `UEvenniaPluginBPLibrary::EvenniaParseString` (EvenniaPlugin.cpp
589-612): `Success` is false (`none`) on a null or invalid handle or
malformed text; on success the parsed object tree replaces the handle's
shared object. -/
def EvenniaParseString (h : Handle) (s : String) : Option JFields :=
  match h with
  | some (some _) => parseTop s
  | _ => Option.none

/-- The keys of a field list, in order. -/
def fieldKeys : JFields → List String
  | .nil => []
  | .cons k _ fs => k :: fieldKeys fs

mutual
/-- Trees an object tree can take after being built solely by the
construction/mutation operations: string fields (`EvenniaAddJSONElement`),
numeric fields (`EvenniaAddJSONNumericElement`), nested objects built the
same way (`EvenniaAddJSONObject` on handles from `EvenniaNewJSONObject`), and
arrays of such objects (`EvenniaAddJSONArrayToObject` /
`EvenniaAddJSONObjectToArray`).  A "tree" is acyclic by definition.  `TMap`
keys are unique, so field keys are required to be distinct. -/
inductive BuiltV : JTree → Prop where
  | str (s : String) : BuiltV (.tstr s)
  | num (m : Int) (k : Nat) : BuiltV (.tnum m k)
  | obj {fs : JFields} : BuiltF fs → BuiltV (.tobj fs)
  | arr {es : JTreeList} : BuiltL es → BuiltV (.tarr es)

/-- Element lists of built arrays: every element is a built object. -/
inductive BuiltL : JTreeList → Prop where
  | nil : BuiltL .nil
  | cons {fs : JFields} {ts : JTreeList} :
      BuiltF fs → BuiltL ts → BuiltL (.cons (.tobj fs) ts)

/-- Field lists of built objects: built values under distinct keys. -/
inductive BuiltF : JFields → Prop where
  | nil : BuiltF .nil
  | cons {k : String} {v : JTree} {fs : JFields} :
      BuiltV v → BuiltF fs → k ∉ fieldKeys fs → BuiltF (.cons k v fs)
end

mutual
/-- No `tnone` (`EJson::None`) anywhere in the tree: the serializer emits
nothing for such a value, so only none-free trees print to valid JSON. -/
def noneFreeV : JTree → Bool
  | .tnone => false
  | .tnull => true
  | .tstr _ => true
  | .tnum _ _ => true
  | .tbool _ => true
  | .tarr es => noneFreeL es
  | .tobj fs => noneFreeF fs

/-- No `tnone` in any element. -/
def noneFreeL : JTreeList → Bool
  | .nil => true
  | .cons t ts => noneFreeV t && noneFreeL ts

/-- No `tnone` in any field value. -/
def noneFreeF : JFields → Bool
  | .nil => true
  | .cons _ v fs => noneFreeV v && noneFreeF fs
end

mutual
/-- Fuel weight of a tree: an upper bound on the reader calls consumed when
parsing its serialization. -/
def weightV : JTree → Nat
  | .tnone => 1
  | .tnull => 1
  | .tstr _ => 1
  | .tnum _ _ => 1
  | .tbool _ => 1
  | .tarr es => 1 + weightL es
  | .tobj fs => 1 + weightF fs

/-- Fuel weight of an element list. -/
def weightL : JTreeList → Nat
  | .nil => 1
  | .cons t ts => 1 + weightV t + weightL ts

/-- Fuel weight of a field list. -/
def weightF : JFields → Nat
  | .nil => 1
  | .cons _ v fs => 1 + weightV v + weightF fs
end

/-- Whether a byte is a UTF-8 continuation byte. -/
def isContByte (b : UInt8) : Bool :=
  0x80 ≤ b.toNat && b.toNat < 0xC0

/-- Modelled from the spec: UTF-8 text decoding (§4.1/§6 of the spec say the
receive path decodes the buffer as UTF-8).  Decodes well-formed 1-4 byte
sequences; malformed bytes decode to U+FFFD.  `fuel` bounds the recursion
(callers pass the input length; every step consumes at least one byte). -/
def utf8DecodeChars : Nat → List UInt8 → List Char
  | _, [] => []
  | 0, _ => []
  | fuel + 1, b :: rest =>
    if b.toNat < 0x80 then Char.ofNat b.toNat :: utf8DecodeChars fuel rest
    else if b.toNat < 0xC0 then '�' :: utf8DecodeChars fuel rest
    else if b.toNat < 0xE0 then
      match rest with
      | b2 :: rest' =>
        if isContByte b2 then
          Char.ofNat ((b.toNat - 0xC0) * 64 + (b2.toNat - 0x80)) ::
            utf8DecodeChars fuel rest'
        else '�' :: utf8DecodeChars fuel rest
      | [] => ['�']
    else if b.toNat < 0xF0 then
      match rest with
      | b2 :: b3 :: rest' =>
        if isContByte b2 && isContByte b3 then
          Char.ofNat ((b.toNat - 0xE0) * 4096 + (b2.toNat - 0x80) * 64 +
              (b3.toNat - 0x80)) :: utf8DecodeChars fuel rest'
        else '�' :: utf8DecodeChars fuel rest
      | _ => ['�']
    else if b.toNat < 0xF8 then
      match rest with
      | b2 :: b3 :: b4 :: rest' =>
        if isContByte b2 && isContByte b3 && isContByte b4 then
          Char.ofNat ((b.toNat - 0xF0) * 262144 + (b2.toNat - 0x80) * 4096 +
              (b3.toNat - 0x80) * 64 + (b4.toNat - 0x80)) ::
            utf8DecodeChars fuel rest'
        else '�' :: utf8DecodeChars fuel rest
      | _ => ['�']
    else '�' :: utf8DecodeChars fuel rest

/-- Modelled from the spec: UTF-8 decoding of a byte sequence to text. -/
def utf8DecodeSpec (bs : List UInt8) : String :=
  String.mk (utf8DecodeChars bs.length bs)

/-- The last element of `l` satisfying `p`, if any (the value surviving a
left-to-right fold of replacing writes). -/
def lastMatching {α : Type} (p : α → Bool) (l : List α) : Option α :=
  l.reverse.find? p

/-- C7: for every payload held by a valid value handle,
`EvenniaGetJSONValueType` outputs exactly the `EJsonType` enumerator
corresponding to the payload's `EJson` tag (the numeric `static_cast` agrees
with the name-for-name correspondence on all seven tags). -/
theorem c7_value_type_tags (v : JVal) (cur : EJsonType) :
    EvenniaGetJSONValueType (some (some v)) cur = specCorrespondingTag v.typeTag := by
  cases v <;> rfl

/-- C3 counterexample: an environment where the IPv4 parse fails but socket
construction and the handshake succeed; `Connect` nevertheless returns
success=true with a connection, because the source discards the result of
`FIPv4Address::Parse` (EvenniaPlugin.cpp line 57). -/
theorem c3_counterexample :
    Connect ⟨false, true, true⟩ = (some (some ()), true) := rfl

/-- C3 amended: `Connect` returns success=false and a null connection exactly
when socket construction or the connect handshake fails, and success=true
with a connection wrapping the live descriptor otherwise; the IPv4 parse
outcome has no effect on the result. -/
theorem c3_amended (env : ConnectEnv) (b : Bool) :
    (env.buildOk = false ∨ env.connectOk = false →
      Connect env = (Option.none, false)) ∧
    (env.buildOk = true → env.connectOk = true →
      Connect env = (some (some ()), true)) ∧
    Connect { env with parseOk := b } = Connect env := by
  rcases env with ⟨p, bu, co⟩
  cases bu <;> cases co <;>
    refine ⟨fun h => ?_, fun h1 h2 => ?_, rfl⟩ <;> simp_all [Connect]

/-- C3 witness: at the concrete environment where socket construction fails,
the amended theorem yields the failure return. -/
theorem c3_amended_witness : Connect ⟨true, false, true⟩ = (Option.none, false) :=
  (c3_amended ⟨true, false, true⟩ true).1 (Or.inl rfl)

/-- C2: concrete evaluations showing the missing index validation.  On an
empty array, index 0 passes `EvenniaGetJSONObjectFromArray`'s guard
`Index <= Num()` and reaches an out-of-bounds element access (a fault,
`none`), `EvenniaGetJSONObjectType` reaches an out-of-bounds access with no
guard at all, and a negative index reaches the element access in
`EvenniaGetJSONElementMultiple`; only an index `≥ Num()` in the latter is the
handled failure the claim requires of all out-of-range indices. -/
theorem c2_index_validation_failures :
    EvenniaGetJSONObjectFromArray (some []) 0 false = Option.none ∧
    EvenniaGetJSONObjectType (some []) 0 EJsonType.none = Option.none ∧
    EvenniaGetJSONElementMultiple [] (some [JVal.jnull]) (-1) "k" "v" = Option.none ∧
    EvenniaGetJSONElementMultiple [] (some [JVal.jnull]) 1 "k" "v" = some "" :=
  ⟨rfl, rfl, rfl, rfl⟩

/-- C4: operations invoked on a null or invalid handle, or a null, invalid or
never-connected connection, leave the store unchanged, return their failure
indicator (false / unchanged output / no result), and never reach the absent
resource; in particular `CloseConnection` returns false there. -/
theorem c4_invalid_handle_safety (store : Store) (h : Handle) (conn : Socket)
    (name value s : String) (m : Int) (k fuel : Nat) (closeOk : Bool)
    (bytes : List UInt8) (cur : EJsonType)
    (hh : h = Option.none ∨ h = some Option.none)
    (hc : conn = Option.none ∨ conn = some Option.none) :
    EvenniaAddJSONElement store h name value = store ∧
    EvenniaAddJSONNumericElement store h name m k = store ∧
    EvenniaAddJSONObject store h name (some (some 0)) = store ∧
    EvenniaAddJSONArrayToObject store h name (some []) = store ∧
    EvenniaGetJSONElement store h name value = value ∧
    EvenniaGetJSONValueType (some Option.none) cur = cur ∧
    EvenniaSerializeJSONObject fuel store h = Option.none ∧
    EvenniaParseString h s = Option.none ∧
    CloseConnection closeOk conn = false ∧
    GetMessage conn bytes = Option.none := by
  rcases hh with rfl | rfl <;> rcases hc with rfl | rfl <;>
    exact ⟨rfl, rfl, rfl, rfl, rfl, rfl, rfl, rfl, rfl, rfl⟩

/-- C4 witness: the safety theorem at a concrete store, a never-initialized
handle (null shared object) and a never-connected connection (null
descriptor). -/
theorem c4_invalid_handle_safety_witness :
    EvenniaAddJSONElement [[("hp", JVal.jstr "5")]] (some Option.none) "a" "b"
        = [[("hp", JVal.jstr "5")]] ∧
    EvenniaAddJSONNumericElement [[("hp", JVal.jstr "5")]] (some Option.none) "a" 1 0
        = [[("hp", JVal.jstr "5")]] ∧
    EvenniaAddJSONObject [[("hp", JVal.jstr "5")]] (some Option.none) "a" (some (some 0))
        = [[("hp", JVal.jstr "5")]] ∧
    EvenniaAddJSONArrayToObject [[("hp", JVal.jstr "5")]] (some Option.none) "a" (some [])
        = [[("hp", JVal.jstr "5")]] ∧
    EvenniaGetJSONElement [[("hp", JVal.jstr "5")]] (some Option.none) "a" "b" = "b" ∧
    EvenniaGetJSONValueType (some Option.none) EJsonType.null = EJsonType.null ∧
    EvenniaSerializeJSONObject 3 [[("hp", JVal.jstr "5")]] (some Option.none) = Option.none ∧
    EvenniaParseString (some Option.none) "{}" = Option.none ∧
    CloseConnection true (some Option.none) = false ∧
    GetMessage (some Option.none) [104] = Option.none :=
  c4_invalid_handle_safety [[("hp", JVal.jstr "5")]] (some Option.none)
    (some Option.none) "a" "b" "{}" 1 0 3 true [104] EJsonType.null
    (Or.inr rfl) (Or.inr rfl)

theorem assoc_find_map_set {α β : Type} [BEq α] [LawfulBEq α]
    (m : List (α × β)) (k : α) (v : β) (h : m.any (fun p => p.1 == k)) :
    (m.map (fun p => if p.1 == k then (k, v) else p)).find? (fun p => p.1 == k)
      = some (k, v) := by
  induction m with
  | nil => simp at h
  | cons p rest ih =>
    simp only [List.map_cons]
    by_cases hp : (p.1 == k) = true
    · rw [if_pos hp]
      simp [List.find?_cons]
    · rw [if_neg hp]
      simp only [List.find?_cons, hp]
      apply ih
      simp only [List.any_cons, Bool.or_eq_true] at h
      tauto

theorem assocGet_assocSet {α β : Type} [BEq α] [LawfulBEq α]
    (m : List (α × β)) (k : α) (v : β) :
    assocGet (assocSet m k v) k = some v := by
  unfold assocGet assocSet
  by_cases h : m.any (fun p => p.1 == k)
  · rw [if_pos h, assoc_find_map_set m k v h]
    rfl
  · rw [if_neg h, List.find?_append]
    have h1 : m.find? (fun p => p.1 == k) = Option.none := by
      rw [List.find?_eq_none]
      intro x hx hpx
      exact absurd (List.any_eq_true.mpr ⟨x, hx, hpx⟩) h
    rw [h1]
    simp [List.find?_cons]

theorem assocGet_assocSet_ne {α β : Type} [BEq α] [LawfulBEq α]
    (m : List (α × β)) (k : α) (v : β) (t : α) (hne : t ≠ k) :
    assocGet (assocSet m k v) t = assocGet m t := by
  unfold assocGet assocSet
  by_cases h : m.any (fun p => p.1 == k)
  · rw [if_pos h]
    congr 1
    clear h
    induction m with
    | nil => rfl
    | cons p rest ih =>
      simp only [List.map_cons]
      by_cases hpt : (p.1 == t) = true
      · have hpk : (p.1 == k) = false := by
          have hp : p.1 = t := eq_of_beq hpt
          subst hp
          simpa using hne
        rw [hpk]
        simp only [Bool.false_eq_true, if_false]
        simp [List.find?_cons, hpt]
      · by_cases hpk : (p.1 == k) = true
        · rw [if_pos hpk]
          have hkt : (k == t) = false := by
            simpa using Ne.symm hne
          simp only [List.find?_cons, hkt, hpt]
          exact ih
        · rw [if_neg hpk]
          simp only [List.find?_cons, hpt]
          exact ih
  · rw [if_neg h, List.find?_append]
    have h2 : ([(k, v)].find? (fun p => p.1 == t)) = Option.none := by
      have hkt : (k == t) = false := by
        simpa using Ne.symm hne
      simp [List.find?_cons, hkt]
    rw [h2, Option.or_none]

theorem storeGetField_storeSetField_self (store : Store) (a : Addr)
    (key : String) (x : JVal) (cell : ObjCell)
    (hget : store.get? a = some cell) :
    storeGetField (storeSetField store a key x) a key = some x := by
  unfold storeSetField storeGetField
  rw [hget, List.get?_set_eq, hget]
  simp [assocGet_assocSet]

/-- C9 counterexample: on an object holding only key `"hp"`, the string
getter yields the empty string for the absent key `"mana"`, and it yields
exactly the same output when `"mana"` is present with the empty-string
value; the operation's only output is the string (the found flag of
`TryGetStringField` is discarded, EvenniaPlugin.cpp line 394), so a missing
key is not distinguishable from a present key holding the zero value. -/
theorem c9_counterexample :
    EvenniaGetJSONElement [[("hp", JVal.jstr "5")]] (some (some 0)) "mana" "zzz" = "" ∧
    EvenniaGetJSONElement [[("hp", JVal.jstr "5"), ("mana", JVal.jstr "")]]
        (some (some 0)) "mana" "zzz" = "" :=
  ⟨rfl, rfl⟩

/-- C9 amended: on a valid object handle, a key whose (escape-rewritten)
lookup is absent yields the zero-value string, and a present key holding the
empty string yields the same; no found indicator is produced. -/
theorem c9_amended (store : Store) (a : Addr) (name vIn : String)
    (cell : ObjCell) (hget : store.get? a = some cell) :
    (assocGet cell (replaceEscapedCharWithChar name) = Option.none →
      EvenniaGetJSONElement store (some (some a)) name vIn = "") ∧
    (assocGet cell (replaceEscapedCharWithChar name) = some (.jstr "") →
      EvenniaGetJSONElement store (some (some a)) name vIn = "") := by
  have hget2 : store[a]? = some cell := by
    rw [← List.get?_eq_getElem?]
    exact hget
  constructor <;> intro habs <;>
    simp [EvenniaGetJSONElement, storeGetField, hget2, habs, JVal.tryGetString]

/-- C9 amended witness: the amended theorem at the concrete `"hp"`-only
object and key `"mana"`. -/
theorem c9_amended_witness :
    EvenniaGetJSONElement [[("hp", JVal.jstr "5")]] (some (some 0)) "mana" "q" = "" :=
  (c9_amended [[("hp", JVal.jstr "5")]] 0 "mana" "q" [("hp", JVal.jstr "5")] rfl).1 rfl

/-- C8 counterexample: attaching an (empty) array handle to an (empty) array
with `EvenniaAddJSONArrayToArray` stores no reference to the nested array at
all: the appended element wraps the null object of the function's
never-initialized temporary handle, so re-reading the element yields an
invalid handle and no mutation of the nested array can ever be visible
through the container. -/
theorem c8_counterexample :
    EvenniaAddJSONArrayToArray [] (some []) "k" (some [])
      = ([], some [JVal.jobj Option.none]) ∧
    EvenniaGetJSONObjectFromArray (some [JVal.jobj Option.none]) 0 false
      = some (true, some Option.none) :=
  ⟨rfl, rfl⟩

/-- C8 amended: attaching an existing object handle
(`EvenniaAddJSONObjectToArray`) stores a shared reference — re-reading the
appended element yields a handle onto the same cell, and a mutation through
the original handle after the attachment is visible when the element is
re-read; attaching an array (`EvenniaAddJSONArrayToObject`) instead stores a
copy of the array's current element list. -/
theorem c8_amended (store : Store) (l : List JVal) (a : Addr) (key v : String)
    (cell : ObjCell) (hget : store.get? a = some cell) (hkey : key ≠ "")
    (hesc : replaceEscapedCharWithChar key = key) :
    EvenniaAddJSONObjectToArray (some l) (some (some a))
      = some (l ++ [.jobj (some a)]) ∧
    EvenniaGetJSONObjectFromArray (some (l ++ [.jobj (some a)]))
        (l.length : Int) false = some (true, some (some a)) ∧
    EvenniaGetJSONElement (EvenniaAddJSONElement store (some (some a)) key v)
        (some (some a)) key "" = v ∧
    EvenniaAddJSONArrayToObject store (some (some a)) key (some l)
      = storeSetField store a key (.jarr l) := by
  refine ⟨rfl, ?_, ?_, rfl⟩
  · simp only [EvenniaGetJSONObjectFromArray]
    have hlen : ((l.length : Int)) ≤ ((l ++ [JVal.jobj (some a)]).length : Int) := by
      simp
    rw [if_pos hlen, if_pos (by positivity)]
    have : (l ++ [JVal.jobj (some a)]).get? (l.length : Int).toNat
        = some (JVal.jobj (some a)) := by
      simp [List.get?_eq_getElem?]
    rw [this]
    rfl
  · simp only [EvenniaAddJSONElement]
    rw [if_pos hkey]
    simp only [EvenniaGetJSONElement, hesc]
    rw [storeGetField_storeSetField_self store a key (.jstr v) cell hget]
    rfl

/-- C8 amended witness: the amended theorem at a concrete one-cell store,
empty array, key `"hp"` and value `"9"`. -/
theorem c8_amended_witness :
    EvenniaAddJSONObjectToArray (some []) (some (some 0))
      = some [JVal.jobj (some 0)] ∧
    EvenniaGetJSONObjectFromArray (some [JVal.jobj (some 0)]) 0 false
      = some (true, some (some 0)) ∧
    EvenniaGetJSONElement
        (EvenniaAddJSONElement [[("x", JVal.jstr "0")]] (some (some 0)) "hp" "9")
        (some (some 0)) "hp" "" = "9" ∧
    EvenniaAddJSONArrayToObject [[("x", JVal.jstr "0")]] (some (some 0)) "hp" (some [])
      = storeSetField [[("x", JVal.jstr "0")]] 0 "hp" (.jarr []) := by
  have h := c8_amended [[("x", JVal.jstr "0")]] [] 0 "hp" "9" [("x", JVal.jstr "0")]
    rfl (by decide) (by rfl)
  simpa using h

theorem recvLoop_nil (fuel : Nat) (buf : List UInt8) :
    recvLoop fuel [] buf = buf := by
  cases fuel <;> simp [recvLoop]

theorem recvLoop_eq_lastBlock (fuel : Nat) :
    ∀ (p buf : List UInt8), p ≠ [] → p.length ≤ fuel →
      recvLoop (fuel + 1) p buf = lastBlock fuel p := by
  induction fuel with
  | zero =>
    intro p buf hne hlen
    cases p with
    | nil => exact absurd rfl hne
    | cons b bs => simp at hlen
  | succ f ih =>
    intro p buf hne hlen
    rcases p with _ | ⟨b, bs⟩
    · exact absurd rfl hne
    · show recvLoop (f + 1 + 1) (b :: bs) buf = lastBlock (f + 1) (b :: bs)
      rw [show recvLoop (f + 1 + 1) (b :: bs) buf
          = if (b :: bs).isEmpty then buf
            else recvLoop (f + 1) ((b :: bs).drop (min (b :: bs).length recvCap))
              ((b :: bs).take (min (b :: bs).length recvCap)) from rfl]
      rw [show lastBlock (f + 1) (b :: bs)
          = if (b :: bs).length ≤ recvCap then b :: bs
            else lastBlock f ((b :: bs).drop recvCap) from rfl]
      simp only [List.isEmpty_cons, Bool.false_eq_true, if_false]
      by_cases hcap : (b :: bs).length ≤ recvCap
      · rw [if_pos hcap, Nat.min_eq_left hcap, List.drop_length, List.take_length,
          recvLoop_nil]
      · have hcap' : recvCap < (b :: bs).length := Nat.lt_of_not_le hcap
        have hmin : min (b :: bs).length recvCap = recvCap :=
          Nat.min_eq_right (Nat.le_of_lt hcap')
        rw [if_neg hcap, hmin]
        have hc1 : 1 ≤ recvCap := by norm_num [recvCap]
        have hdne : (b :: bs).drop recvCap ≠ [] := by
          apply List.ne_nil_of_length_pos
          rw [List.length_drop]
          simp only [List.length_cons] at hcap'
          omega
        have hdlen : ((b :: bs).drop recvCap).length ≤ f := by
          rw [List.length_drop]
          simp only [List.length_cons] at hlen ⊢
          omega
        exact ih _ _ hdne hdlen

theorem lastBlock_ne_nil (fuel : Nat) :
    ∀ (p : List UInt8), p ≠ [] → lastBlock fuel p ≠ [] := by
  induction fuel with
  | zero =>
    intro p hne
    rcases p with _ | ⟨b, bs⟩
    · exact absurd rfl hne
    · simp [lastBlock]
  | succ f ih =>
    intro p hne
    rcases p with _ | ⟨b, bs⟩
    · exact absurd rfl hne
    · rw [show lastBlock (f + 1) (b :: bs)
          = if (b :: bs).length ≤ recvCap then b :: bs
            else lastBlock f ((b :: bs).drop recvCap) from rfl]
      by_cases hcap : (b :: bs).length ≤ recvCap
      · rw [if_pos hcap]
        exact hne
      · rw [if_neg hcap]
        apply ih
        apply List.ne_nil_of_length_pos
        rw [List.length_drop]
        simp only [List.length_cons] at hcap ⊢
        have hc1 : 1 ≤ recvCap := by norm_num [recvCap]
        omega

/-- C5 counterexample: on a valid connection with the two pending bytes
`0xC3 0xA9` (the UTF-8 encoding of `é`), `GetMessage` succeeds but decodes
the bytes one-per-character (`ANSI_TO_TCHAR`, EvenniaPlugin.cpp line 179),
yielding a two-character message different from the UTF-8 decoding the claim
asserts. -/
theorem c5_counterexample :
    GetMessage (some (some ())) [0xC3, 0xA9] = some (ansiDecode [0xC3, 0xA9]) ∧
    ansiDecode [0xC3, 0xA9] ≠ utf8DecodeSpec [0xC3, 0xA9] ∧
    utf8DecodeSpec [0xC3, 0xA9] = "é" :=
  ⟨rfl, by decide, rfl⟩

/-- C5 amended: on a valid connection, `GetMessage` fails exactly when no
data was pending on entry; otherwise it succeeds and the message is the
byte-per-character decoding (not UTF-8) of the final read window only — the
last at-most-65507-byte block of the pending stream, truncated at its first
NUL byte — every earlier full window having been overwritten. -/
theorem c5_amended (pending : List UInt8) :
    (GetMessage (some (some ())) pending = Option.none ↔ pending = []) ∧
    (pending ≠ [] →
      GetMessage (some (some ())) pending =
        some (ansiDecode
          ((lastBlock pending.length pending).takeWhile (fun b => b ≠ 0)))) := by
  have hmain : pending ≠ [] →
      GetMessage (some (some ())) pending =
        some (ansiDecode
          ((lastBlock pending.length pending).takeWhile (fun b => b ≠ 0))) := by
    intro hne
    show (let buf := recvLoop (pending.length + 1) pending []
          if buf.isEmpty then Option.none
          else some (ansiDecode (buf.takeWhile (fun b => b ≠ 0)))) = _
    rw [show recvLoop (pending.length + 1) pending []
        = lastBlock pending.length pending from
      recvLoop_eq_lastBlock pending.length pending [] hne (Nat.le_refl _)]
    have hbne := lastBlock_ne_nil pending.length pending hne
    simp only [List.isEmpty_iff, if_neg hbne]
  constructor
  · constructor
    · intro h
      by_contra hne
      rw [hmain hne] at h
      exact Option.noConfusion h
    · intro h
      subst h
      rfl
  · exact hmain

/-- C5 amended witness: the amended theorem at a valid connection with the
pending bytes of `"hi"`. -/
theorem c5_amended_witness :
    GetMessage (some (some ())) [104, 105] = some "hi" :=
  (c5_amended [104, 105]).2 (by decide)

/-- C6: on a valid object handle, the string-field setter rejects the empty
key (the store is unchanged), while the numeric-, object- and array-field
setters accept it and write the field under the empty-string key (the
numeric write is visible on lookup of the empty key). -/
theorem c6_empty_key (store : Store) (a : Addr) (v : String) (m : Int)
    (k : Nat) (arr : List JVal) (obj : Option Addr) (cell : ObjCell)
    (hget : store.get? a = some cell) :
    EvenniaAddJSONElement store (some (some a)) "" v = store ∧
    EvenniaAddJSONNumericElement store (some (some a)) "" m k
      = storeSetField store a "" (.jnum m k) ∧
    storeGetField (EvenniaAddJSONNumericElement store (some (some a)) "" m k)
        a "" = some (.jnum m k) ∧
    EvenniaAddJSONObject store (some (some a)) "" (some obj)
      = storeSetField store a "" (.jobj obj) ∧
    EvenniaAddJSONArrayToObject store (some (some a)) "" (some arr)
      = storeSetField store a "" (.jarr arr) := by
  refine ⟨rfl, rfl, ?_, rfl, rfl⟩
  show storeGetField (storeSetField store a (replaceEscapedCharWithChar "")
      (.jnum m k)) a "" = some (.jnum m k)
  exact storeGetField_storeSetField_self store a "" (.jnum m k) cell hget

/-- C6 witness: the empty-key theorem at a concrete one-cell store. -/
theorem c6_empty_key_witness :
    EvenniaAddJSONElement [[]] (some (some 0)) "" "v" = [[]] ∧
    EvenniaAddJSONNumericElement [[]] (some (some 0)) "" 3 1
      = storeSetField [[]] 0 "" (.jnum 3 1) ∧
    storeGetField (EvenniaAddJSONNumericElement [[]] (some (some 0)) "" 3 1)
        0 "" = some (.jnum 3 1) ∧
    EvenniaAddJSONObject [[]] (some (some 0)) "" (some Option.none)
      = storeSetField [[]] 0 "" (.jobj Option.none) ∧
    EvenniaAddJSONArrayToObject [[]] (some (some 0)) "" (some [])
      = storeSetField [[]] 0 "" (.jarr []) :=
  c6_empty_key [[]] 0 "v" 3 1 [] Option.none [] rfl

theorem any_beq_iff_mem_keys {α β : Type} [BEq α] [LawfulBEq α]
    (m : List (α × β)) (k : α) :
    m.any (fun p => p.1 == k) = true ↔ k ∈ m.map Prod.fst := by
  rw [List.any_eq_true]
  constructor
  · rintro ⟨p, hp, hb⟩
    exact (eq_of_beq hb) ▸ List.mem_map_of_mem Prod.fst hp
  · intro hk
    obtain ⟨p, hp, hpk⟩ := List.mem_map.mp hk
    exact ⟨p, hp, by rw [hpk]; exact beq_self_eq_true k⟩

theorem keys_map_set {α β : Type} [BEq α] [LawfulBEq α]
    (m : List (α × β)) (k : α) (v : β) :
    (m.map (fun p => if p.1 == k then (k, v) else p)).map Prod.fst
      = m.map Prod.fst := by
  induction m with
  | nil => rfl
  | cons p rest ih =>
    simp only [List.map_cons, ih]
    congr 1
    by_cases hp : (p.1 == k) = true
    · rw [if_pos hp]
      exact (eq_of_beq hp).symm
    · rw [if_neg hp]

theorem mem_keys_assocSet {α β : Type} [BEq α] [LawfulBEq α]
    (m : List (α × β)) (k : α) (v : β) (t : α) :
    t ∈ (assocSet m k v).map Prod.fst ↔ t ∈ m.map Prod.fst ∨ t = k := by
  unfold assocSet
  by_cases h : m.any (fun p => p.1 == k)
  · rw [if_pos h, keys_map_set]
    have hk : k ∈ m.map Prod.fst := (any_beq_iff_mem_keys m k).mp h
    constructor
    · exact Or.inl
    · rintro (h1 | rfl)
      · exact h1
      · exact hk
  · rw [if_neg h]
    simp

theorem nodup_keys_assocSet {α β : Type} [BEq α] [LawfulBEq α]
    (m : List (α × β)) (k : α) (v : β)
    (h : (m.map Prod.fst).Nodup) : ((assocSet m k v).map Prod.fst).Nodup := by
  unfold assocSet
  by_cases hany : m.any (fun p => p.1 == k)
  · rw [if_pos hany, keys_map_set]
    exact h
  · rw [if_neg hany, List.map_append]
    rw [List.nodup_append]
    refine ⟨h, List.nodup_singleton _, ?_⟩
    intro x hx hxk
    simp only [List.map_cons, List.map_nil, List.mem_singleton] at hxk
    subst hxk
    exact absurd ((any_beq_iff_mem_keys m x).mpr hx) hany

theorem mem_keys_tv_foldl (l : List JVal) :
    ∀ (acc : List (EJsonType × JVal)) (t : EJsonType),
      t ∈ ((l.foldl (fun acc v => assocSet acc (castEJson v.typeTag) v)
          acc).map Prod.fst)
        ↔ t ∈ acc.map Prod.fst
          ∨ t ∈ l.map (fun v => castEJson v.typeTag) := by
  induction l with
  | nil => simp
  | cons v rest ih =>
    intro acc t
    rw [List.foldl_cons, ih, mem_keys_assocSet]
    simp only [List.map_cons, List.mem_cons]
    tauto

theorem nodup_keys_tv_foldl (l : List JVal) :
    ∀ (acc : List (EJsonType × JVal)), (acc.map Prod.fst).Nodup →
      ((l.foldl (fun acc v => assocSet acc (castEJson v.typeTag) v)
          acc).map Prod.fst).Nodup := by
  induction l with
  | nil => exact fun acc h => h
  | cons v rest ih =>
    intro acc h
    rw [List.foldl_cons]
    exact ih _ (nodup_keys_assocSet _ _ _ h)

theorem assocGet_tv_foldl (l : List JVal) :
    ∀ (acc : List (EJsonType × JVal)) (t : EJsonType),
      assocGet (l.foldl (fun acc v => assocSet acc (castEJson v.typeTag) v)
          acc) t
        = (lastMatching (fun v => castEJson v.typeTag == t) l).or
            (assocGet acc t) := by
  induction l with
  | nil =>
    intro acc t
    simp [lastMatching]
  | cons v rest ih =>
    intro acc t
    rw [List.foldl_cons, ih]
    have hlast : lastMatching (fun v => castEJson v.typeTag == t) (v :: rest)
        = (lastMatching (fun v => castEJson v.typeTag == t) rest).or
            (if castEJson v.typeTag == t then some v else Option.none) := by
      unfold lastMatching
      rw [List.reverse_cons, List.find?_append]
      congr 1
      by_cases hpv : (castEJson v.typeTag == t) = true <;>
        simp [List.find?_cons, hpv]
    rw [hlast, Option.or_assoc]
    congr 1
    by_cases hpv : (castEJson v.typeTag == t) = true
    · have ht : castEJson v.typeTag = t := eq_of_beq hpv
      rw [if_pos hpv, ← ht, assocGet_assocSet]
      simp
    · have ht : t ≠ castEJson v.typeTag := by
        intro heq
        exact hpv (by rw [heq]; simp)
      rw [if_neg hpv, assocGet_assocSet_ne _ _ _ _ ht]
      simp

theorem card_toFinset_lt_of_not_nodup {α : Type} [DecidableEq α]
    (l : List α) (h : ¬ l.Nodup) : l.toFinset.card < l.length := by
  have h0 : l.dedup.toFinset = l.toFinset := by
    ext x
    simp [List.mem_dedup]
  have h1 : l.toFinset.card = l.dedup.length := by
    rw [← h0, List.toFinset_card_of_nodup (List.nodup_dedup l)]
  rw [h1]
  refine lt_of_le_of_ne (List.dedup_sublist l).length_le ?_
  intro heq
  have hde : l.dedup = l := (List.dedup_sublist l).eq_of_length heq
  exact h (hde ▸ List.nodup_dedup l)

/-- C10: `EvenniaGetJSONArrayTypesAndValues` keys its output map by the cast
type tag, so the key list is duplicate-free (at most one surviving value per
tag, a later element overwriting an earlier one of the same tag — the
surviving value for a tag is the last element with that tag), and
`ElementCount` is the number of distinct tags present: at most 7, and
strictly less than the array length whenever two elements share a tag.  A
null input yields the empty map and count 0. -/
theorem c10_types_and_values (l : List JVal) (t : EJsonType) :
    EvenniaGetJSONArrayTypesAndValues Option.none = ([], 0) ∧
    ((EvenniaGetJSONArrayTypesAndValues (some l)).1.map Prod.fst).Nodup ∧
    (EvenniaGetJSONArrayTypesAndValues (some l)).2
      = ((l.map (fun v => castEJson v.typeTag)).toFinset.card : Int) ∧
    (EvenniaGetJSONArrayTypesAndValues (some l)).2 ≤ 7 ∧
    (¬ (l.map (fun v => castEJson v.typeTag)).Nodup →
      (EvenniaGetJSONArrayTypesAndValues (some l)).2 < (l.length : Int)) ∧
    assocGet (EvenniaGetJSONArrayTypesAndValues (some l)).1 t
      = lastMatching (fun v => castEJson v.typeTag == t) l := by
  have hnd : (((l.foldl (fun acc v => assocSet acc (castEJson v.typeTag) v)
      []).map Prod.fst)).Nodup :=
    nodup_keys_tv_foldl l [] (by simp)
  have hset : ((l.foldl (fun acc v => assocSet acc (castEJson v.typeTag) v)
      []).map Prod.fst).toFinset
      = (l.map (fun v => castEJson v.typeTag)).toFinset := by
    ext x
    simp only [List.mem_toFinset]
    rw [mem_keys_tv_foldl l [] x]
    simp
  have hlen : (l.foldl (fun acc v => assocSet acc (castEJson v.typeTag) v)
      []).length = (l.map (fun v => castEJson v.typeTag)).toFinset.card := by
    rw [← hset, List.toFinset_card_of_nodup hnd, List.length_map]
  refine ⟨rfl, hnd, ?_, ?_, ?_, ?_⟩
  · show ((l.foldl (fun acc v => assocSet acc (castEJson v.typeTag) v)
        []).length : Int) = _
    rw [hlen]
  · show ((l.foldl (fun acc v => assocSet acc (castEJson v.typeTag) v)
        []).length : Int) ≤ 7
    rw [hlen]
    have h7 : (l.map (fun v => castEJson v.typeTag)).toFinset.card
        ≤ Fintype.card EJsonType := Finset.card_le_univ _
    have hc : Fintype.card EJsonType = 7 := by decide
    omega
  · intro hdup
    show ((l.foldl (fun acc v => assocSet acc (castEJson v.typeTag) v)
        []).length : Int) < (l.length : Int)
    rw [hlen]
    have := card_toFinset_lt_of_not_nodup _ hdup
    rw [List.length_map] at this
    omega
  · show assocGet (l.foldl (fun acc v => assocSet acc (castEJson v.typeTag) v)
        []) t = _
    rw [assocGet_tv_foldl l [] t]
    simp [assocGet]

/-- C10 witness: on a two-element array whose elements share the String tag,
the count is strictly below the length and the surviving value for the
String key is the later element. -/
theorem c10_types_and_values_witness :
    (EvenniaGetJSONArrayTypesAndValues (some [JVal.jstr "a", JVal.jstr "b"])).2
      < 2 ∧
    assocGet (EvenniaGetJSONArrayTypesAndValues
        (some [JVal.jstr "a", JVal.jstr "b"])).1 EJsonType.string
      = lastMatching (fun v => castEJson v.typeTag == EJsonType.string)
          [JVal.jstr "a", JVal.jstr "b"] := by
  have h := c10_types_and_values [JVal.jstr "a", JVal.jstr "b"] EJsonType.string
  exact ⟨h.2.2.2.2.1 (by decide), h.2.2.2.2.2⟩

theorem digitChar_isDigit (d : Nat) : (digitChar d).isDigit = true := by
  unfold digitChar
  split_ifs <;> decide

theorem digitVal_digitChar (d : Nat) (h : d < 10) :
    digitVal (digitChar d) = d := by
  interval_cases d <;> decide

theorem hexVal_hexDigit (d : Nat) (h : d < 16) :
    hexVal (hexDigit d) = some d := by
  interval_cases d <;> decide

theorem natDigitsFuel_irrel (f1 : Nat) :
    ∀ (f2 n : Nat), n < f1 → n < f2 → natDigitsFuel f1 n = natDigitsFuel f2 n := by
  induction f1 with
  | zero =>
    intro f2 n h1 h2
    exact absurd h1 (by omega)
  | succ g ih =>
    intro f2 n h1 h2
    cases f2 with
    | zero => exact absurd h2 (by omega)
    | succ h =>
      by_cases hn : n < 10
      · simp [natDigitsFuel, hn]
      · simp only [natDigitsFuel, if_neg hn]
        congr 1
        have hd : n / 10 < n := Nat.div_lt_self (by omega) (by omega)
        exact ih _ _ (by omega) (by omega)

theorem natDigits_small (n : Nat) (h : n < 10) :
    natDigits n = [digitChar n] := by
  unfold natDigits
  simp [natDigitsFuel, h]

theorem natDigits_step (n : Nat) (h : 10 ≤ n) :
    natDigits n = natDigits (n / 10) ++ [digitChar (n % 10)] := by
  unfold natDigits
  rw [show natDigitsFuel (n + 1) n
      = if n < 10 then [digitChar n]
        else natDigitsFuel n (n / 10) ++ [digitChar (n % 10)] from rfl]
  rw [if_neg (by omega)]
  congr 1
  exact natDigitsFuel_irrel n (n / 10 + 1) (n / 10)
    (Nat.div_lt_self (by omega) (by omega)) (by omega)

theorem natDigits_ne_nil (n : Nat) : natDigits n ≠ [] := by
  by_cases h : n < 10
  · rw [natDigits_small n h]
    simp
  · rw [natDigits_step n (by omega)]
    simp

theorem natDigits_all_digits (n : Nat) :
    ∀ c ∈ natDigits n, c.isDigit = true := by
  induction n using Nat.strong_induction_on with
  | h n ih =>
    by_cases h : n < 10
    · rw [natDigits_small n h]
      intro c hc
      rw [List.mem_singleton] at hc
      subst hc
      exact digitChar_isDigit n
    · rw [natDigits_step n (by omega)]
      intro c hc
      rcases List.mem_append.mp hc with h1 | h2
      · exact ih (n / 10) (Nat.div_lt_self (by omega) (by omega)) c h1
      · rw [List.mem_singleton] at h2
        subst h2
        exact digitChar_isDigit _

theorem digitsToNat_append_single (ds : List Char) (c : Char) :
    digitsToNat (ds ++ [c]) = 10 * digitsToNat ds + digitVal c := by
  unfold digitsToNat
  rw [List.foldl_append]
  rfl

theorem digitsToNat_natDigits (n : Nat) : digitsToNat (natDigits n) = n := by
  induction n using Nat.strong_induction_on with
  | h n ih =>
    by_cases h : n < 10
    · rw [natDigits_small n h]
      show 10 * 0 + digitVal (digitChar n) = n
      rw [digitVal_digitChar n h]
      omega
    · rw [natDigits_step n (by omega), digitsToNat_append_single,
        ih (n / 10) (Nat.div_lt_self (by omega) (by omega)),
        digitVal_digitChar _ (Nat.mod_lt n (by omega))]
      omega

theorem digitsToNat_foldl_acc (ds : List Char) :
    ∀ acc : Nat, ds.foldl (fun a c => 10 * a + digitVal c) acc
      = acc * 10 ^ ds.length + digitsToNat ds := by
  induction ds with
  | nil =>
    intro acc
    simp [digitsToNat]
  | cons c ds ih =>
    intro acc
    rw [List.foldl_cons, ih]
    have h2 : digitsToNat (c :: ds)
        = digitVal c * 10 ^ ds.length + digitsToNat ds := by
      show List.foldl _ (10 * 0 + digitVal c) ds = _
      rw [ih]
      simp
    rw [h2, List.length_cons]
    ring

theorem digitsToNat_append (a b : List Char) :
    digitsToNat (a ++ b) = digitsToNat a * 10 ^ b.length + digitsToNat b := by
  show List.foldl _ 0 (a ++ b) = _
  rw [List.foldl_append]
  exact digitsToNat_foldl_acc b _

theorem digitsToNat_replicate_zero (j : Nat) (ds : List Char) :
    digitsToNat (List.replicate j '0' ++ ds) = digitsToNat ds := by
  induction j with
  | zero => simp
  | succ j ih =>
    rw [List.replicate_succ, List.cons_append]
    show List.foldl _ (10 * 0 + digitVal '0') _ = _
    have h0 : (10 * 0 + digitVal '0') = 0 := by decide
    rw [h0]
    exact ih

theorem readDigits_not_digit (r : List Char)
    (hr : ∀ c, r.head? = some c → c.isDigit = false) :
    readDigits r = ([], r) := by
  cases r with
  | nil => rfl
  | cons c cs =>
    have hc := hr c rfl
    simp [readDigits, hc]

theorem readDigits_append (ds : List Char) (r : List Char)
    (hds : ∀ c ∈ ds, c.isDigit = true)
    (hr : ∀ c, r.head? = some c → c.isDigit = false) :
    readDigits (ds ++ r) = (ds, r) := by
  induction ds with
  | nil => exact readDigits_not_digit r hr
  | cons c cs ih =>
    have hc : c.isDigit = true := hds c (by simp)
    rw [List.cons_append]
    simp [readDigits, hc, ih (fun x hx => hds x (by simp [hx]))]

theorem boundary_head_facts (r : List Char) (hb : boundaryOk r = true) :
    ∀ c, r.head? = some c →
      c.isDigit = false ∧ c ≠ '.' ∧ c ≠ 'e' ∧ c ≠ 'E'
        ∧ (c = ',' ∨ c = ']' ∨ c = '}') := by
  intro c hc
  cases r with
  | nil => simp at hc
  | cons c0 cs =>
    simp only [List.head?_cons, Option.some.injEq] at hc
    subst hc
    unfold boundaryOk boundaryChar at hb
    simp only [Bool.or_eq_true, decide_eq_true_eq] at hb
    rcases hb with (rfl | rfl) | rfl <;>
      exact ⟨by decide, by decide, by decide, by decide, by tauto⟩

theorem parseExponent_boundary (mI : Int) (k : Nat) (r : List Char)
    (hb : boundaryOk r = true) :
    parseExponent mI k r = some (.tnum mI k, r) := by
  cases r with
  | nil => rfl
  | cons c cs =>
    obtain ⟨-, -, he, hE, -⟩ := boundary_head_facts _ hb c rfl
    simp [parseExponent, he, hE]

theorem serNumPadded_all (mAbs k : Nat) :
    ∀ c ∈ serNumPadded mAbs k, c.isDigit = true := by
  unfold serNumPadded
  split_ifs with h
  · intro c hc
    rcases List.mem_append.mp hc with h1 | h2
    · rw [List.eq_of_mem_replicate h1]
      decide
    · exact natDigits_all_digits _ c h2
  · exact natDigits_all_digits _

theorem serNumPadded_length (mAbs k : Nat) :
    k + 1 ≤ (serNumPadded mAbs k).length := by
  unfold serNumPadded
  split_ifs with h
  · rw [List.length_append, List.length_replicate]
    omega
  · have h2 := natDigits_ne_nil mAbs
    omega

theorem serNumPadded_value (mAbs k : Nat) :
    digitsToNat (serNumPadded mAbs k) = mAbs := by
  unfold serNumPadded
  split_ifs
  · rw [digitsToNat_replicate_zero, digitsToNat_natDigits]
  · exact digitsToNat_natDigits _

theorem parseNumAfterSign_digits (ds : List Char) (r : List Char) (neg : Bool)
    (hds : ∀ c ∈ ds, c.isDigit = true) (hne : ds ≠ [])
    (hb : boundaryOk r = true) :
    parseNumAfterSign neg (ds ++ r)
      = some (.tnum (mkSigned neg (digitsToNat ds)) 0, r) := by
  have hrd : readDigits (ds ++ r) = (ds, r) :=
    readDigits_append ds r hds (fun c hc => (boundary_head_facts r hb c hc).1)
  unfold parseNumAfterSign
  rw [hrd]
  rw [if_neg (fun hh : ds.isEmpty = true => hne (List.isEmpty_iff.mp hh))]
  have hdot : ¬ (r.head? = some '.') := by
    cases r with
    | nil => simp
    | cons c0 cs =>
      have hc0 := (boundary_head_facts _ hb c0 rfl).2.1
      simp [hc0]
  rw [if_neg hdot]
  exact parseExponent_boundary _ 0 r hb

theorem parseNumAfterSign_frac (a b r : List Char) (neg : Bool)
    (ha : ∀ c ∈ a, c.isDigit = true) (hane : a ≠ [])
    (hbd : ∀ c ∈ b, c.isDigit = true) (hbne : b ≠ [])
    (hb : boundaryOk r = true) :
    parseNumAfterSign neg (a ++ '.' :: (b ++ r))
      = some (.tnum
          (mkSigned neg (digitsToNat a * 10 ^ b.length + digitsToNat b))
          b.length, r) := by
  have hrd1 : readDigits (a ++ '.' :: (b ++ r)) = (a, '.' :: (b ++ r)) :=
    readDigits_append a _ ha
      (fun c hc => by
        simp only [List.head?_cons, Option.some.injEq] at hc
        subst hc
        decide)
  have hrd2 : readDigits (b ++ r) = (b, r) :=
    readDigits_append b r hbd (fun c hc => (boundary_head_facts r hb c hc).1)
  unfold parseNumAfterSign
  rw [hrd1]
  rw [show ((a, '.' :: (b ++ r)).2.tail) = b ++ r from rfl,
    show ((a, '.' :: (b ++ r)).1) = a from rfl,
    show ((a, '.' :: (b ++ r)).2.head?) = some '.' from rfl]
  rw [if_neg (fun hh : a.isEmpty = true => hane (List.isEmpty_iff.mp hh))]
  rw [if_pos rfl]
  rw [hrd2]
  rw [show ((b, r).1) = b from rfl, show ((b, r).2) = r from rfl]
  rw [if_neg (fun hh : b.isEmpty = true => hbne (List.isEmpty_iff.mp hh))]
  exact parseExponent_boundary _ _ r hb

theorem parseNumber_serNum (m : Int) (k : Nat) (r : List Char)
    (hb : boundaryOk r = true) :
    parseNumber (serNum m k ++ r) = some (.tnum m k, r) := by
  have hmag : ∀ neg : Bool,
      parseNumAfterSign neg
        ((if k = 0 then natDigits m.natAbs
          else (serNumPadded m.natAbs k).take ((serNumPadded m.natAbs k).length - k)
            ++ '.' :: (serNumPadded m.natAbs k).drop
                ((serNumPadded m.natAbs k).length - k)) ++ r)
      = some (.tnum (mkSigned neg m.natAbs) k, r) := by
    intro neg
    by_cases hk : k = 0
    · subst hk
      rw [if_pos rfl,
        parseNumAfterSign_digits _ r neg (natDigits_all_digits m.natAbs)
          (natDigits_ne_nil m.natAbs) hb, digitsToNat_natDigits]
    · rw [if_neg hk]
      have hL := serNumPadded_length m.natAbs k
      have hAll := serNumPadded_all m.natAbs k
      have hAall : ∀ c ∈ (serNumPadded m.natAbs k).take
          ((serNumPadded m.natAbs k).length - k), c.isDigit = true :=
        fun c hc => hAll c (List.take_subset _ _ hc)
      have hBall : ∀ c ∈ (serNumPadded m.natAbs k).drop
          ((serNumPadded m.natAbs k).length - k), c.isDigit = true :=
        fun c hc => hAll c (List.drop_subset _ _ hc)
      have hAlen : ((serNumPadded m.natAbs k).take
          ((serNumPadded m.natAbs k).length - k)).length
          = (serNumPadded m.natAbs k).length - k := by
        rw [List.length_take]
        omega
      have hBlen : ((serNumPadded m.natAbs k).drop
          ((serNumPadded m.natAbs k).length - k)).length = k := by
        rw [List.length_drop]
        omega
      have hAne : (serNumPadded m.natAbs k).take
          ((serNumPadded m.natAbs k).length - k) ≠ [] := by
        apply List.ne_nil_of_length_pos
        omega
      have hBne : (serNumPadded m.natAbs k).drop
          ((serNumPadded m.natAbs k).length - k) ≠ [] := by
        apply List.ne_nil_of_length_pos
        omega
      rw [show ((serNumPadded m.natAbs k).take ((serNumPadded m.natAbs k).length - k)
            ++ '.' :: (serNumPadded m.natAbs k).drop
                ((serNumPadded m.natAbs k).length - k)) ++ r
          = (serNumPadded m.natAbs k).take ((serNumPadded m.natAbs k).length - k)
            ++ '.' :: ((serNumPadded m.natAbs k).drop
                ((serNumPadded m.natAbs k).length - k) ++ r) by
        simp [List.append_assoc]]
      rw [parseNumAfterSign_frac _ _ r neg hAall hAne hBall hBne hb]
      have hval : digitsToNat ((serNumPadded m.natAbs k).take
            ((serNumPadded m.natAbs k).length - k))
          * 10 ^ ((serNumPadded m.natAbs k).drop
              ((serNumPadded m.natAbs k).length - k)).length
          + digitsToNat ((serNumPadded m.natAbs k).drop
              ((serNumPadded m.natAbs k).length - k)) = m.natAbs := by
        rw [← digitsToNat_append, List.take_append_drop, serNumPadded_value]
      rw [hval, hBlen]
  unfold serNum
  by_cases hm : m < 0
  · rw [if_pos hm]
    rw [show (['-'] ++ (if k = 0 then natDigits m.natAbs
        else (serNumPadded m.natAbs k).take ((serNumPadded m.natAbs k).length - k)
          ++ '.' :: (serNumPadded m.natAbs k).drop
              ((serNumPadded m.natAbs k).length - k))) ++ r
        = '-' :: ((if k = 0 then natDigits m.natAbs
          else (serNumPadded m.natAbs k).take ((serNumPadded m.natAbs k).length - k)
            ++ '.' :: (serNumPadded m.natAbs k).drop
                ((serNumPadded m.natAbs k).length - k)) ++ r) by
      simp]
    unfold parseNumber
    rw [if_pos (by rfl : ('-' :: _).head? = some '-')]
    rw [show ('-' :: ((if k = 0 then natDigits m.natAbs
        else (serNumPadded m.natAbs k).take ((serNumPadded m.natAbs k).length - k)
          ++ '.' :: (serNumPadded m.natAbs k).drop
              ((serNumPadded m.natAbs k).length - k)) ++ r)).tail
        = (if k = 0 then natDigits m.natAbs
          else (serNumPadded m.natAbs k).take ((serNumPadded m.natAbs k).length - k)
            ++ '.' :: (serNumPadded m.natAbs k).drop
                ((serNumPadded m.natAbs k).length - k)) ++ r from rfl]
    rw [hmag true]
    have : mkSigned true m.natAbs = m := by
      unfold mkSigned
      rw [if_pos rfl]
      omega
    rw [this]
  · rw [if_neg hm]
    rw [List.nil_append]
    have hhead : ∃ c0 cs0, (if k = 0 then natDigits m.natAbs
        else (serNumPadded m.natAbs k).take ((serNumPadded m.natAbs k).length - k)
          ++ '.' :: (serNumPadded m.natAbs k).drop
              ((serNumPadded m.natAbs k).length - k))
        = c0 :: cs0 ∧ c0.isDigit = true := by
      by_cases hk : k = 0
      · rw [if_pos hk]
        obtain ⟨c0, cs0, hds⟩ := List.exists_cons_of_ne_nil (natDigits_ne_nil m.natAbs)
        exact ⟨c0, cs0, hds, natDigits_all_digits m.natAbs c0 (hds ▸ List.mem_cons_self c0 cs0)⟩
      · rw [if_neg hk]
        have hL := serNumPadded_length m.natAbs k
        have hAne : (serNumPadded m.natAbs k).take
            ((serNumPadded m.natAbs k).length - k) ≠ [] := by
          apply List.ne_nil_of_length_pos
          rw [List.length_take]
          omega
        obtain ⟨c0, cs0, hds⟩ := List.exists_cons_of_ne_nil hAne
        refine ⟨c0, cs0 ++ '.' :: (serNumPadded m.natAbs k).drop
            ((serNumPadded m.natAbs k).length - k), by rw [hds]; rfl, ?_⟩
        exact serNumPadded_all m.natAbs k c0
          (List.take_subset _ _ (hds ▸ List.mem_cons_self c0 cs0))
    obtain ⟨c0, cs0, hds, hdig⟩ := hhead
    unfold parseNumber
    rw [hds, List.cons_append]
    have hnotminus : ¬ ((c0 :: (cs0 ++ r)).head? = some '-') := by
      simp only [List.head?_cons, Option.some.injEq]
      intro heq
      subst heq
      exact absurd hdig (by decide)
    rw [if_neg hnotminus]
    rw [show (c0 :: (cs0 ++ r)) = (c0 :: cs0) ++ r from rfl, ← hds]
    rw [hmag false]
    have : mkSigned false m.natAbs = m := by
      unfold mkSigned
      simp only [Bool.false_eq_true, if_false]
      omega
    rw [this]

theorem psb_u (a b : Nat) (ha : a < 16) (hb2 : b < 16) (t : List Char) :
    parseStringBody ('\\' :: 'u' :: '0' :: '0' :: hexDigit a :: hexDigit b :: t)
      = (parseStringBody t).map
          (fun p => (Char.ofNat (a * 16 + b) :: p.1, p.2)) := by
  conv_lhs => rw [parseStringBody.eq_def]
  simp [show hexVal '0' = some 0 from by decide, hexVal_hexDigit a ha,
    hexVal_hexDigit b hb2]

theorem psb_default (c : Char) (t : List Char) (h1 : ¬ c = '"')
    (h2 : ¬ c = '\\') :
    parseStringBody (c :: t)
      = (parseStringBody t).map (fun p => (c :: p.1, p.2)) := by
  conv_lhs => rw [parseStringBody.eq_def]
  split
  · next heq => exact absurd heq (by simp)
  · next c1 r heq =>
    injection heq with hc hr
    subst hc
    subst hr
    rw [if_neg h1, if_neg h2]

theorem psb_escChar (c : Char) (t : List Char) :
    parseStringBody (escChar c ++ t)
      = (parseStringBody t).map (fun p => (c :: p.1, p.2)) := by
  unfold escChar
  split_ifs with h1 h2 h3 h4 h5 h6 h7 h8
  · subst h1
    conv_lhs => rw [parseStringBody.eq_def]
    rfl
  · subst h2
    conv_lhs => rw [parseStringBody.eq_def]
    rfl
  · subst h3
    conv_lhs => rw [parseStringBody.eq_def]
    rfl
  · subst h4
    conv_lhs => rw [parseStringBody.eq_def]
    rfl
  · subst h5
    conv_lhs => rw [parseStringBody.eq_def]
    rfl
  · subst h6
    conv_lhs => rw [parseStringBody.eq_def]
    rfl
  · subst h7
    conv_lhs => rw [parseStringBody.eq_def]
    rfl
  · rw [show ('\\' :: 'u' :: '0' :: '0' :: hexDigit (c.toNat / 16)
        :: hexDigit (c.toNat % 16) :: []) ++ t
        = '\\' :: 'u' :: '0' :: '0' :: hexDigit (c.toNat / 16)
          :: hexDigit (c.toNat % 16) :: t from rfl]
    rw [psb_u _ _ (by omega) (by omega) t]
    have harith : c.toNat / 16 * 16 + c.toNat % 16 = c.toNat := by omega
    rw [harith, Char.ofNat_toNat]
  · rw [show [c] ++ t = c :: t from rfl]
    exact psb_default c t h1 h2

theorem parseStringBody_escape (s : List Char) (r : List Char) :
    parseStringBody (escapeChars s ++ '"' :: r) = some (s, r) := by
  induction s with
  | nil =>
    rw [show escapeChars [] ++ '"' :: r = '"' :: r from rfl]
    conv_lhs => rw [parseStringBody.eq_def]
    rfl
  | cons c s ih =>
    rw [show escapeChars (c :: s) = escChar c ++ escapeChars s from rfl,
      List.append_assoc, psb_escChar, ih]
    rfl

theorem skipWs_cons_of_not_ws (c : Char) (r : List Char)
    (h : isWsChar c = false) : skipWs (c :: r) = c :: r := by
  simp [skipWs, List.dropWhile_cons, h]

theorem isDigit_facts (c : Char) (h : c.isDigit = true) :
    isWsChar c = false ∧ c ≠ ']' ∧ c ≠ '}' ∧ c ≠ ',' ∧ c ≠ '-' ∧ c ≠ '{'
      ∧ c ≠ '[' ∧ c ≠ '"' ∧ c ≠ 'n' ∧ c ≠ 't' ∧ c ≠ 'f' := by
  refine ⟨?_, ?_, ?_, ?_, ?_, ?_, ?_, ?_, ?_, ?_, ?_⟩
  · cases hw : isWsChar c with
    | false => rfl
    | true =>
      exfalso
      unfold isWsChar at hw
      simp only [Bool.or_eq_true, decide_eq_true_eq] at hw
      rcases hw with ((rfl | rfl) | rfl) | rfl <;> exact absurd h (by decide)
  all_goals
    intro heq
    subst heq
    exact absurd h (by decide)

theorem serMagnitude_head (mAbs k : Nat) :
    ∃ c0 cs0, (if k = 0 then natDigits mAbs
      else (serNumPadded mAbs k).take ((serNumPadded mAbs k).length - k)
        ++ '.' :: (serNumPadded mAbs k).drop ((serNumPadded mAbs k).length - k))
      = c0 :: cs0 ∧ c0.isDigit = true := by
  by_cases hk : k = 0
  · rw [if_pos hk]
    obtain ⟨c0, cs0, hds⟩ := List.exists_cons_of_ne_nil (natDigits_ne_nil mAbs)
    exact ⟨c0, cs0, hds,
      natDigits_all_digits mAbs c0 (hds ▸ List.mem_cons_self c0 cs0)⟩
  · rw [if_neg hk]
    have hL := serNumPadded_length mAbs k
    have hAne : (serNumPadded mAbs k).take
        ((serNumPadded mAbs k).length - k) ≠ [] := by
      apply List.ne_nil_of_length_pos
      rw [List.length_take]
      omega
    obtain ⟨c0, cs0, hds⟩ := List.exists_cons_of_ne_nil hAne
    refine ⟨c0, cs0 ++ '.' :: (serNumPadded mAbs k).drop
        ((serNumPadded mAbs k).length - k), by rw [hds]; rfl, ?_⟩
    exact serNumPadded_all mAbs k c0
      (List.take_subset _ _ (hds ▸ List.mem_cons_self c0 cs0))

theorem serNum_head_cases (m : Int) (k : Nat) :
    ∃ c cs, serNum m k = c :: cs ∧ (c = '-' ∨ c.isDigit = true) := by
  unfold serNum
  by_cases hm : m < 0
  · rw [if_pos hm]
    exact ⟨'-', _, rfl, Or.inl rfl⟩
  · rw [if_neg hm, List.nil_append]
    obtain ⟨c0, cs0, heq, hdig⟩ := serMagnitude_head m.natAbs k
    exact ⟨c0, cs0, heq, Or.inr hdig⟩

theorem serVal_head (t : JTree) (hnf : noneFreeV t = true) :
    ∃ c cs, serVal t = c :: cs ∧ isWsChar c = false ∧ c ≠ ']' ∧ c ≠ '}'
      ∧ c ≠ ',' := by
  cases t with
  | tnone => exact absurd hnf (by simp [noneFreeV])
  | tnull => exact ⟨'n', _, rfl, by decide, by decide, by decide, by decide⟩
  | tbool b =>
    cases b with
    | true => exact ⟨'t', _, rfl, by decide, by decide, by decide, by decide⟩
    | false => exact ⟨'f', _, rfl, by decide, by decide, by decide, by decide⟩
  | tstr s => exact ⟨'"', _, rfl, by decide, by decide, by decide, by decide⟩
  | tnum m k =>
    obtain ⟨c, cs, heq, hc⟩ := serNum_head_cases m k
    refine ⟨c, cs, heq, ?_⟩
    rcases hc with rfl | hd
    · exact ⟨by decide, by decide, by decide, by decide⟩
    · obtain ⟨hw, h1, h2, h3, -⟩ := isDigit_facts c hd
      exact ⟨hw, h1, h2, h3⟩
  | tarr es => exact ⟨'[', _, rfl, by decide, by decide, by decide, by decide⟩
  | tobj fs => exact ⟨'{', _, rfl, by decide, by decide, by decide, by decide⟩

theorem string_mk_toList (s : String) : String.mk s.toList = s := rfl

theorem weightV_pos (t : JTree) : 1 ≤ weightV t := by
  cases t <;> simp [weightV]

theorem weightL_pos (es : JTreeList) : 1 ≤ weightL es := by
  cases es <;> (simp only [weightL]; omega)

theorem weightF_pos (fs : JFields) : 1 ≤ weightF fs := by
  cases fs <;> (simp only [weightF]; omega)

theorem parse_ser_inversion (n : Nat) :
    (∀ t r, noneFreeV t = true → weightV t ≤ n → boundaryOk r = true →
      parseVal n (serVal t ++ r) = some (t, r)) ∧
    (∀ t ts r, noneFreeL (.cons t ts) = true → weightL (.cons t ts) ≤ n →
      parseElems n (serList (.cons t ts) ++ ']' :: r) = some (.cons t ts, r)) ∧
    (∀ k v fs r, noneFreeF (.cons k v fs) = true → weightF (.cons k v fs) ≤ n →
      parseFields n (serFields (.cons k v fs) ++ '}' :: r)
        = some (.cons k v fs, r)) := by
  induction n using Nat.strong_induction_on with
  | h n ih =>
  refine ⟨?_, ?_, ?_⟩
  · -- values
    intro t r hnf hw hb
    have hpos := weightV_pos t
    cases n with
    | zero => omega
    | succ m =>
    cases t with
    | tnone => simp [noneFreeV] at hnf
    | tnull =>
      rw [show serVal .tnull ++ r = 'n' :: ('u' :: 'l' :: 'l' :: r) from rfl]
      simp only [parseVal]
      rw [skipWs_cons_of_not_ws _ _ (by decide)]
      simp
    | tbool b =>
      cases b
      · rw [show serVal (.tbool false) ++ r
            = 'f' :: ('a' :: 'l' :: 's' :: 'e' :: r) from rfl]
        simp only [parseVal]
        rw [skipWs_cons_of_not_ws _ _ (by decide)]
        simp
      · rw [show serVal (.tbool true) ++ r
            = 't' :: ('r' :: 'u' :: 'e' :: r) from rfl]
        simp only [parseVal]
        rw [skipWs_cons_of_not_ws _ _ (by decide)]
        simp
    | tstr s =>
      rw [show serVal (.tstr s) ++ r
          = '"' :: (escapeChars s.toList ++ ('"' :: r)) by
        simp [serVal, serStr]]
      simp only [parseVal]
      rw [skipWs_cons_of_not_ws _ _ (by decide)]
      simp
      exact ⟨s.toList, parseStringBody_escape s.toList r, rfl⟩
    | tnum mI k =>
      obtain ⟨c, cs0, heq, hc⟩ := serNum_head_cases mI k
      rw [show serVal (.tnum mI k) = serNum mI k from rfl, heq,
        List.cons_append]
      simp only [parseVal]
      rcases hc with rfl | hd
      · rw [skipWs_cons_of_not_ws _ _ (by decide)]
        simp only [show ¬(('-' : Char) = '{') from by decide,
          show ¬(('-' : Char) = '[') from by decide,
          show ¬(('-' : Char) = '"') from by decide,
          show ¬(('-' : Char) = 'n') from by decide,
          show ¬(('-' : Char) = 't') from by decide,
          show ¬(('-' : Char) = 'f') from by decide, if_false]
        rw [show ('-' :: (cs0 ++ r)) = serNum mI k ++ r by rw [heq]; rfl]
        exact parseNumber_serNum mI k r hb
      · obtain ⟨hwsf, hbr1, hbr2, hcomma, hminus, hlbrace, hlbrack, hquote,
          hn, ht, hf⟩ := isDigit_facts c hd
        rw [skipWs_cons_of_not_ws _ _ hwsf]
        simp only [hlbrace, hlbrack, hquote, hn, ht, hf, if_false]
        rw [show (c :: (cs0 ++ r)) = serNum mI k ++ r by rw [heq]; rfl]
        exact parseNumber_serNum mI k r hb
    | tarr es =>
      rw [show serVal (.tarr es) ++ r = '[' :: (serList es ++ (']' :: r)) by
        simp [serVal]]
      simp only [parseVal]
      rw [skipWs_cons_of_not_ws _ _ (by decide)]
      simp only [show ¬(('[' : Char) = '{') from by decide, if_false,
        if_pos rfl]
      cases es with
      | nil =>
        rw [show serList .nil ++ (']' :: r) = ']' :: r by simp [serList]]
        rw [skipWs_cons_of_not_ws _ _ (by decide)]
        simp
      | cons t ts =>
        have hnfL : noneFreeL (.cons t ts) = true := by
          simpa [noneFreeV] using hnf
        have hnfT : noneFreeV t = true := by
          simp [noneFreeL] at hnfL
          exact hnfL.1
        obtain ⟨tail0, htail⟩ : ∃ tail0, serList (.cons t ts)
            = serVal t ++ tail0 := by
          cases ts
          · exact ⟨[], by simp [serList]⟩
          · exact ⟨_, rfl⟩
        obtain ⟨c0, cs0, hv, hvw, hvbr, hvbr2, hvc⟩ := serVal_head t hnfT
        rw [show serList (.cons t ts) ++ (']' :: r)
            = c0 :: (cs0 ++ tail0 ++ (']' :: r)) by
          rw [htail, hv]; simp]
        rw [skipWs_cons_of_not_ws _ _ hvw]
        simp only [hvbr, if_false]
        rw [show (c0 :: (cs0 ++ tail0 ++ (']' :: r)))
            = serList (.cons t ts) ++ (']' :: r) by
          rw [htail, hv]; simp]
        have hwl : weightL (.cons t ts) ≤ m := by
          simp only [weightV] at hw
          omega
        rw [(ih m (by omega)).2.1 t ts r hnfL hwl]
        rfl
    | tobj fs =>
      rw [show serVal (.tobj fs) ++ r = '{' :: (serFields fs ++ ('}' :: r)) by
        simp [serVal]]
      simp only [parseVal]
      rw [skipWs_cons_of_not_ws _ _ (by decide)]
      simp only [if_pos rfl]
      cases fs with
      | nil =>
        rw [show serFields .nil ++ ('}' :: r) = '}' :: r by simp [serFields]]
        rw [skipWs_cons_of_not_ws _ _ (by decide)]
        simp
      | cons k v fs' =>
        have hnfF : noneFreeF (.cons k v fs') = true := by
          simpa [noneFreeV] using hnf
        obtain ⟨X, hX⟩ : ∃ X, serFields (.cons k v fs') = '"' :: X := by
          cases fs' <;> exact ⟨_, rfl⟩
        rw [show serFields (.cons k v fs') ++ ('}' :: r)
            = '"' :: (X ++ ('}' :: r)) by rw [hX]; rfl]
        rw [skipWs_cons_of_not_ws _ _ (by decide)]
        simp only [show ¬(('"' : Char) = '}') from by decide, if_false]
        rw [show ('"' :: (X ++ ('}' :: r)))
            = serFields (.cons k v fs') ++ ('}' :: r) by rw [hX]; rfl]
        have hwf : weightF (.cons k v fs') ≤ m := by
          simp only [weightV] at hw
          omega
        rw [(ih m (by omega)).2.2 k v fs' r hnfF hwf]
        rfl
  · -- array elements
    intro t ts r hnf hw
    cases n with
    | zero =>
      have := weightL_pos (.cons t ts)
      omega
    | succ m =>
    simp only [parseElems]
    have hnfT : noneFreeV t = true := by
      simp [noneFreeL] at hnf
      exact hnf.1
    have hnfTs : noneFreeL ts = true := by
      simp [noneFreeL] at hnf
      exact hnf.2
    have hwv : weightV t ≤ m := by
      simp only [weightL] at hw
      have := weightL_pos ts
      omega
    cases ts with
    | nil =>
      rw [show serList (.cons t .nil) ++ ']' :: r = serVal t ++ (']' :: r) by
        simp [serList]]
      rw [(ih m (by omega)).1 t (']' :: r) hnfT hwv (by rfl)]
      simp [skipWs, List.dropWhile_cons, isWsChar]
    | cons t2 ts2 =>
      rw [show serList (.cons t (.cons t2 ts2)) ++ ']' :: r
          = serVal t ++ (',' :: (serList (.cons t2 ts2) ++ ']' :: r)) by
        simp [serList]]
      rw [(ih m (by omega)).1 t _ hnfT hwv (by rfl)]
      have hwl2 : weightL (.cons t2 ts2) ≤ m := by
        simp only [weightL] at hw ⊢
        omega
      have hsome := (ih m (by omega)).2.1 t2 ts2 r hnfTs hwl2
      simp [skipWs, List.dropWhile_cons, isWsChar, hsome]
  · -- object fields
    intro k v fs r hnf hw
    cases n with
    | zero =>
      have := weightF_pos (.cons k v fs)
      omega
    | succ m =>
    simp only [parseFields]
    have hnfV : noneFreeV v = true := by
      simp [noneFreeF] at hnf
      exact hnf.1
    have hnfFs : noneFreeF fs = true := by
      simp [noneFreeF] at hnf
      exact hnf.2
    have hwv : weightV v ≤ m := by
      simp only [weightF] at hw
      have := weightF_pos fs
      omega
    cases fs with
    | nil =>
      rw [show serFields (.cons k v .nil) ++ '}' :: r
          = '"' :: (escapeChars k.toList
              ++ ('"' :: (':' :: (serVal v ++ ('}' :: r))))) by
        simp [serFields, serStr]]
      rw [skipWs_cons_of_not_ws _ _ (by decide)]
      have hpsb := parseStringBody_escape k.data
        (':' :: (serVal v ++ ('}' :: r)))
      have hval := (ih m (by omega)).1 v ('}' :: r) hnfV hwv (by rfl)
      simp [skipWs, List.dropWhile_cons, isWsChar, hpsb, hval,
        string_mk_toList]
    | cons k2 v2 fs2 =>
      rw [show serFields (.cons k v (.cons k2 v2 fs2)) ++ '}' :: r
          = '"' :: (escapeChars k.toList
              ++ ('"' :: (':' :: (serVal v
                ++ (',' :: (serFields (.cons k2 v2 fs2) ++ '}' :: r)))))) by
        simp [serFields, serStr]]
      rw [skipWs_cons_of_not_ws _ _ (by decide)]
      have hpsb := parseStringBody_escape k.data (':' :: (serVal v
          ++ (',' :: (serFields (.cons k2 v2 fs2) ++ '}' :: r))))
      have hval := (ih m (by omega)).1 v _ hnfV hwv
        (by rfl : boundaryOk (',' :: (serFields (.cons k2 v2 fs2)
          ++ '}' :: r)) = true)
      have hwf2 : weightF (.cons k2 v2 fs2) ≤ m := by
        simp only [weightF] at hw ⊢
        omega
      have hsome := (ih m (by omega)).2.2 k2 v2 fs2 r hnfFs hwf2
      simp [skipWs, List.dropWhile_cons, isWsChar, string_mk_toList, hpsb,
        hval, hsome]

theorem weight_le_ser (n : Nat) :
    (∀ t, weightV t ≤ n → weightV t ≤ 2 * (serVal t).length + 1) ∧
    (∀ ts, weightL ts ≤ n → weightL ts ≤ 2 * (serList ts).length + 4) ∧
    (∀ fs, weightF fs ≤ n → weightF fs ≤ 2 * (serFields fs).length + 4) := by
  induction n using Nat.strong_induction_on with
  | h n ih =>
  refine ⟨?_, ?_, ?_⟩
  · intro t hw
    have hpos := weightV_pos t
    cases n with
    | zero => omega
    | succ m =>
    cases t with
    | tnone => simp [weightV]
    | tnull => simp [weightV]
    | tstr s => simp [weightV]
    | tnum mI k => simp [weightV]
    | tbool b => simp [weightV]
    | tarr es =>
      have hwe : weightL es ≤ m := by
        simp only [weightV] at hw; omega
      have h1 := (ih m (by omega)).2.1 es hwe
      simp only [weightV, serVal, List.length_cons, List.length_append] at *
      omega
    | tobj fs =>
      have hwf : weightF fs ≤ m := by
        simp only [weightV] at hw; omega
      have h1 := (ih m (by omega)).2.2 fs hwf
      simp only [weightV, serVal, List.length_cons, List.length_append] at *
      omega
  · intro ts hw
    cases n with
    | zero => have := weightL_pos ts; omega
    | succ m =>
    cases ts with
    | nil => simp [weightL, serList]
    | cons t ts2 =>
      have hwt : weightV t ≤ m := by
        simp only [weightL] at hw
        have := weightL_pos ts2; omega
      have h1 := (ih m (by omega)).1 t hwt
      cases ts2 with
      | nil =>
        simp only [weightL, serList, List.length_append] at *
        omega
      | cons t2 ts3 =>
        have hwl : weightL (.cons t2 ts3) ≤ m := by
          simp only [weightL] at hw ⊢
          have := weightV_pos t; omega
        have h2 := (ih m (by omega)).2.1 (.cons t2 ts3) hwl
        simp only [weightL, serList, List.length_append, List.length_cons]
          at *
        omega
  · intro fs hw
    cases n with
    | zero => have := weightF_pos fs; omega
    | succ m =>
    cases fs with
    | nil => simp [weightF, serFields]
    | cons k v fs2 =>
      have hwv : weightV v ≤ m := by
        simp only [weightF] at hw
        have := weightF_pos fs2; omega
      have h1 := (ih m (by omega)).1 v hwv
      cases fs2 with
      | nil =>
        simp only [weightF, serFields, List.length_append, List.length_cons]
          at *
        omega
      | cons k2 v2 fs3 =>
        have hwf : weightF (.cons k2 v2 fs3) ≤ m := by
          simp only [weightF] at hw ⊢
          have := weightV_pos v; omega
        have h2 := (ih m (by omega)).2.2 (.cons k2 v2 fs3) hwf
        simp only [weightF, serFields, List.length_append, List.length_cons]
          at *
        omega

theorem weightV_le_serLen (t : JTree) :
    weightV t ≤ 2 * (serVal t).length + 1 :=
  (weight_le_ser (weightV t)).1 t (le_refl _)

theorem built_noneFree (n : Nat) :
    (∀ t, weightV t ≤ n → BuiltV t → noneFreeV t = true) ∧
    (∀ ts, weightL ts ≤ n → BuiltL ts → noneFreeL ts = true) ∧
    (∀ fs, weightF fs ≤ n → BuiltF fs → noneFreeF fs = true) := by
  induction n using Nat.strong_induction_on with
  | h n ih =>
  refine ⟨?_, ?_, ?_⟩
  · intro t hw hb
    cases n with
    | zero => have := weightV_pos t; omega
    | succ m =>
    cases hb with
    | str s => simp [noneFreeV]
    | num mI k => simp [noneFreeV]
    | obj hf =>
      rename_i fs
      have hwf : weightF fs ≤ m := by
        simp only [weightV] at hw; omega
      simp only [noneFreeV]
      exact (ih m (by omega)).2.2 fs hwf hf
    | arr hl =>
      rename_i es
      have hwe : weightL es ≤ m := by
        simp only [weightV] at hw; omega
      simp only [noneFreeV]
      exact (ih m (by omega)).2.1 es hwe hl
  · intro ts hw hb
    cases n with
    | zero => have := weightL_pos ts; omega
    | succ m =>
    cases hb with
    | nil => simp [noneFreeL]
    | cons hf hl =>
      rename_i fs ts2
      have hwo : weightV (.tobj fs) ≤ m := by
        simp only [weightL] at hw
        have := weightL_pos ts2; omega
      have hwl : weightL ts2 ≤ m := by
        simp only [weightL] at hw
        have := weightV_pos (.tobj fs); omega
      simp only [noneFreeL, Bool.and_eq_true]
      exact ⟨(ih m (by omega)).1 (.tobj fs) hwo (.obj hf),
        (ih m (by omega)).2.1 ts2 hwl hl⟩
  · intro fs hw hb
    cases n with
    | zero => have := weightF_pos fs; omega
    | succ m =>
    cases hb with
    | nil => simp [noneFreeF]
    | cons hv hf hk =>
      rename_i k v fs2
      have hwv : weightV v ≤ m := by
        simp only [weightF] at hw
        have := weightF_pos fs2; omega
      have hwf : weightF fs2 ≤ m := by
        simp only [weightF] at hw
        have := weightV_pos v; omega
      simp only [noneFreeF, Bool.and_eq_true]
      exact ⟨(ih m (by omega)).1 v hwv hv,
        (ih m (by omega)).2.2 fs2 hwf hf⟩

theorem builtF_noneFreeF (fs : JFields) (h : BuiltF fs) :
    noneFreeF fs = true :=
  (built_noneFree (weightF fs)).2.2 fs (le_refl _) h

theorem parseTop_serVal (fs : JFields) (hnf : noneFreeF fs = true) :
    parseTop (String.mk (serVal (.tobj fs))) = some fs := by
  have hnfv : noneFreeV (.tobj fs) = true := by
    simpa [noneFreeV] using hnf
  have hpv := (parse_ser_inversion
      (2 * (serVal (.tobj fs)).length + 1)).1 (.tobj fs) [] hnfv
    (weightV_le_serLen (.tobj fs)) (by rfl)
  rw [List.append_nil] at hpv
  simp only [parseTop]
  rw [show (String.mk (serVal (.tobj fs))).toList = serVal (.tobj fs)
    from rfl]
  rw [hpv]
  rfl

/-- C1: every object tree built solely by the plugin's construction and
mutation operations (a `BuiltF` field list, resolved from a handle's shared
object graph by `flattenCell`) serializes successfully with
`EvenniaSerializeJSONObject`, and `EvenniaParseString` on the produced text
succeeds and returns exactly the same tree — in particular the same key set
and order of every object, the same length and order of every array, and
identical scalar values. -/
theorem c1_round_trip (fuel : Nat) (store : Store) (a : Addr)
    (cell : ObjCell) (fs : JFields)
    (hget : store.get? a = some cell)
    (hfl : flattenCell fuel store cell = some fs)
    (hbuilt : BuiltF fs) :
    EvenniaSerializeJSONObject fuel store (some (some a))
      = some (String.mk (serVal (.tobj fs))) ∧
    EvenniaParseString (some (some a)) (String.mk (serVal (.tobj fs)))
      = some fs := by
  constructor
  · rw [List.get?_eq_getElem?] at hget
    simp [EvenniaSerializeJSONObject, hget, hfl]
  · simp only [EvenniaParseString]
    exact parseTop_serVal fs (builtF_noneFreeF fs hbuilt)

theorem c1_round_trip_witness :
    EvenniaSerializeJSONObject 2 [[("hp", JVal.jstr "10")]] (some (some 0))
      = some (String.mk (serVal (.tobj (.cons "hp" (.tstr "10") .nil)))) ∧
    EvenniaParseString (some (some 0))
        (String.mk (serVal (.tobj (.cons "hp" (.tstr "10") .nil))))
      = some (.cons "hp" (.tstr "10") .nil) :=
  c1_round_trip 2 [[("hp", JVal.jstr "10")]] 0 [("hp", JVal.jstr "10")]
    (.cons "hp" (.tstr "10") .nil) rfl rfl
    (BuiltF.cons (BuiltV.str "10") BuiltF.nil (by simp [fieldKeys]))

end Evennia
